import Mathlib

/-!
Verification of the svmlight-loader parser and writer
(src/_svmlight_loader.cpp) against its natural-language specification.

The C++ core is embedded shallowly:

* a line of text is a List Char (std::getline strips the newline, so a
  file is a list of lines);
* a C++ double is modelled as the exact rational it denotes (ℚ); the
  stream rendering of a double (fout << d with default flags) is modelled
  as printf %g at the default precision six: the value rounded half-even
  to six significant decimal digits, fixed notation when the decimal
  exponent lies in [-4, 5] and scientific notation otherwise, trailing
  fractional zeros stripped.  Theorems that need a value to survive this
  rendering carry the decidable hypothesis reparseQ q = q;
* the istream extraction operators and the two sscanf patterns of
  parse_line are modelled character by character below;
* the five accumulator vectors (data, indices, indptr, labels, comments)
  of parse_line / parse_file form the ParseState structure.  The C++
  code mutates them in place; since every SyntaxError aborts parse_file
  and the caller discards the vectors, modelling an error as a bare
  Except.error is faithful at the module interface.
-/

namespace Svmlight

/-- Whitespace in the C locale, the set skipped by istream skipws and by
scanf conversions. -/
def isWs (c : Char) : Bool :=
  c == ' ' || c == '\t' || c == '\n' || c == '\r' || c == '\x0b' || c == '\x0c'

/-- Decimal digit test (char codes 48 to 57). -/
def isDigitB (c : Char) : Bool :=
  48 ≤ c.toNat && c.toNat ≤ 57

/-- Numeric value of a decimal digit character. -/
def charVal (c : Char) : ℕ := c.toNat - 48

/-- Value of a run of decimal digit characters, most significant first. -/
def natVal (ds : List Char) : ℕ := ds.foldl (fun a c => 10 * a + charVal c) 0

/-- Skip leading whitespace, as istream extraction does. -/
def skipWs (s : List Char) : List Char := s.dropWhile isWs

/-- A maximal nonempty digit run and the value it denotes; the common tail
of the unsigned parsers (strtoul and num_get read digits the same way). -/
def digitsPart (t : List Char) : Option (ℕ × List Char) :=
  let ds := t.takeWhile isDigitB
  if ds.isEmpty then none else some (natVal ds, t.dropWhile isDigitB)

/-- istream >> std::string: skip whitespace, then a maximal nonempty run of
non-whitespace characters. -/
def parseToken (s : List Char) : Option (List Char × List Char) :=
  let s1 := skipWs s
  let t := s1.takeWhile (fun c => !(isWs c))
  if t.isEmpty then none else some (t, s1.dropWhile (fun c => !(isWs c)))

/-- istream >> unsigned and scanf %u: skip whitespace, optional sign, then
digits; the value wraps modulo 2^32 (a leading minus negates modulo 2^32,
as strtoul does). -/
def parseUInt (s : List Char) : Option (ℕ × List Char) :=
  match skipWs s with
  | [] => none
  | c :: r =>
    if c == '-' then
      match digitsPart r with
      | none => none
      | some (v, rest) => some ((2 ^ 32 - v % 2 ^ 32) % 2 ^ 32, rest)
    else if c == '+' then
      match digitsPart r with
      | none => none
      | some (v, rest) => some (v % 2 ^ 32, rest)
    else
      match digitsPart (c :: r) with
      | none => none
      | some (v, rest) => some (v % 2 ^ 32, rest)

/-- istream >> char: skip whitespace, then read one character. -/
def readCharSkip (s : List Char) : Option (Char × List Char) :=
  match skipWs s with
  | [] => none
  | c :: r => some (c, r)

/-- scanf %c: read the next character, no whitespace skipping. -/
def readCharRaw (s : List Char) : Option (Char × List Char) :=
  match s with
  | [] => none
  | c :: r => some (c, r)

/-- Exponent part of a double literal: marker, optional sign, digits.  When
no digit follows the marker the whole exponent is left unconsumed, as the
strtod family backtracks. -/
def parseExp (s : List Char) : Option (ℤ × List Char) :=
  if s.head? = some 'e' || s.head? = some 'E' then
    let r := s.tail
    if r.head? = some '-' then
      match digitsPart r.tail with
      | none => none
      | some (v, rest) => some (-(v : ℤ), rest)
    else if r.head? = some '+' then
      match digitsPart r.tail with
      | none => none
      | some (v, rest) => some ((v : ℤ), rest)
    else
      match digitsPart r with
      | none => none
      | some (v, rest) => some ((v : ℤ), rest)
  else none

/-- The rational denoted by sign, integer digits and fraction digits. -/
def mantissaVal (neg : Bool) (ip fp : List Char) : ℚ :=
  let v : ℚ := (natVal ip : ℚ) + (natVal fp : ℚ) / 10 ^ fp.length
  if neg then -v else v

/-- Mantissa after an optional sign: digits, optional point and digits,
optional exponent; at least one mantissa digit is required. -/
def parseDoubleBody (neg : Bool) (s2 : List Char) : Option (ℚ × List Char) :=
  let ip := s2.takeWhile isDigitB
  let s3 := s2.dropWhile isDigitB
  if s3.head? = some '.' then
    let r3 := s3.tail
    let fp := r3.takeWhile isDigitB
    let s4 := r3.dropWhile isDigitB
    if ip.isEmpty && fp.isEmpty then none
    else
      match parseExp s4 with
      | some (e, s5) => some (mantissaVal neg ip fp * (10 : ℚ) ^ e, s5)
      | none => some (mantissaVal neg ip fp, s4)
  else
    if ip.isEmpty then none
    else
      match parseExp s3 with
      | some (e, s5) => some (mantissaVal neg ip [] * (10 : ℚ) ^ e, s5)
      | none => some (mantissaVal neg ip [], s3)

/-- istream >> double and scanf %lf: skip whitespace, optional sign, then
the mantissa and optional exponent.  Hexadecimal floats and the inf and nan
forms are not modelled; none can arise from the writer or the scenarios of
the specification. -/
def parseDouble (s : List Char) : Option (ℚ × List Char) :=
  let s1 := skipWs s
  if s1.head? = some '-' then parseDoubleBody true s1.tail
  else if s1.head? = some '+' then parseDoubleBody false s1.tail
  else parseDoubleBody false s1

/-- sscanf of the second token against the literal pattern qid: followed by
%lf; true exactly when one conversion succeeds. -/
def scanQid (s : List Char) : Bool :=
  if s.take 4 = ['q', 'i', 'd', ':'] then (parseDouble (s.drop 4)).isSome
  else false

/-- sscanf of the second token against %u%c%lf; some exactly when all three
conversions succeed (return value 3 in the C++ code). -/
def scanFeature (s : List Char) : Option (ℕ × Char × ℚ) :=
  match parseUInt s with
  | none => none
  | some (idx, r1) =>
    match readCharRaw r1 with
    | none => none
    | some (c, r2) =>
      match parseDouble r2 with
      | none => none
      | some (x, _) => some (idx, c, x)

/-- The cast int(idx) of a 32-bit unsigned value, two's complement. -/
def toSigned (n : ℕ) : ℤ :=
  if n < 2 ^ 31 then (n : ℤ) else (n : ℤ) - 2 ^ 32

/-- The while (in >> idx >> c >> x) loop of parse_line, with explicit fuel
so that it is structurally recursive: any extraction failure ends the loop
silently; a read separator other than the colon is a syntax error; otherwise
the pair is appended and the loop continues.  Each iteration consumes at
least one character, so fuel exceeding the stream length is never
exhausted. -/
def featLoopF (fuel : ℕ) (s : List Char) : Except String (List (ℤ × ℚ)) :=
  match fuel with
  | 0 => .ok []
  | f + 1 =>
    match parseUInt s with
    | none => .ok []
    | some (idx, r1) =>
      match readCharSkip r1 with
      | none => .ok []
      | some (c, r2) =>
        match parseDouble r2 with
        | none => .ok []
        | some (x, r3) =>
          if c = ':' then
            match featLoopF f r3 with
            | .error e => .error e
            | .ok fs => .ok ((toSigned idx, x) :: fs)
          else .error "expected separator"

/-- The feature-reading loop with adequate fuel. -/
def featLoop (s : List Char) : Except String (List (ℤ × ℚ)) :=
  featLoopF (s.length + 1) s

/-- One parsed record: label, features in encountered order, comment. -/
structure SvmRecord where
  label : ℚ
  features : List (ℤ × ℚ)
  comment : List Char
deriving DecidableEq

/-- The five accumulator vectors of the loader: CSR data, indices, indptr,
labels, comments.  The writer consumes the same shape. -/
@[ext]
structure ParseState where
  data : List ℚ
  indices : List ℤ
  indptr : List ℕ
  labels : List ℚ
  comments : List (List Char)
deriving DecidableEq

def emptyState : ParseState := ⟨[], [], [], [], []⟩

deriving instance DecidableEq for Except

/-- Append one record to the accumulators, exactly as parse_line pushes:
the new indptr entry is the data length at the moment the record starts. -/
def pushRecord (st : ParseState) (r : SvmRecord) : ParseState :=
  { data := st.data ++ r.features.map Prod.snd
    indices := st.indices ++ r.features.map Prod.fst
    indptr := st.indptr ++ [st.data.length]
    labels := st.labels ++ [r.label]
    comments := st.comments ++ [r.comment] }

/-- What parse_line does to one line: an error, no record (whole-line
comment), or one record.  Mirrors _svmlight_loader.cpp lines 225-277: empty
line and leading hash checks, split at the first hash, label via istream,
mandatory second token, sscanf qid pattern then sscanf %u%c%lf — note that
on a successful %u%c%lf conversion the separator character is NOT compared
with the colon (the colon check only exists in the subsequent while loop),
so any single-character separator is accepted in the second token.  The C++
error message for a failed second token embeds a char that is uninitialized
when fewer than two conversions succeeded; the message is modelled as a
fixed string. -/
def parseLineRec (line : List Char) : Except String (Option SvmRecord) :=
  if line.isEmpty then .error "empty line"
  else if line.head? = some '#' then .ok none
  else
    let hashIdx := line.findIdx (fun c => c == '#')
    match parseDouble (line.take hashIdx) with
    | none => .error "non-numeric or missing label"
    | some (y, r1) =>
      match parseToken r1 with
      | none => .error "Missing qid label"
      | some (tok, r2) =>
        let first : Except String (List (ℤ × ℚ)) :=
          if scanQid tok then .ok []
          else
            match scanFeature tok with
            | some (idx, _, x) => .ok [(toSigned idx, x)]
            | none => .error "expected separator"
        match first with
        | .error e => .error e
        | .ok fs0 =>
          match featLoop r2 with
          | .error e => .error e
          | .ok fs =>
            let comment :=
              if hashIdx < line.length then line.drop (hashIdx + 1) else []
            .ok (some ⟨y, fs0 ++ fs, comment⟩)

/-- parse_line: fold the outcome of one line into the accumulators. -/
def parse_line (line : List Char) (st : ParseState) : Except String ParseState :=
  match parseLineRec line with
  | .error e => .error e
  | .ok none => .ok st
  | .ok (some r) => .ok (pushRecord st r)

/-- The getline loop of parse_file over the lines of the source. -/
def parseLines (ls : List (List Char)) (st : ParseState) : Except String ParseState :=
  match ls with
  | [] => .ok st
  | l :: rest =>
    match parse_line l st with
    | .error e => .error e
    | .ok st2 => parseLines rest st2

/-- parse_file: start from empty vectors, parse every line, then append the
final sentinel indptr entry (the data length). -/
def parse_file (ls : List (List Char)) : Except String ParseState :=
  match parseLines ls emptyState with
  | .error e => .error e
  | .ok st => .ok { st with indptr := st.indptr ++ [st.data.length] }

/-- Modelled from the spec: the high-level load operation (the repository
ships it in the Python wrapper, which is not part of src/) drives the C++
parse_file and then converts the on-disk one-based column indices to the
in-memory zero-based convention unless the caller requests zero_based
(spec sections 6 and 8: the on-disk convention is one-based unless
zero_based is requested, the Builder/Writer shift by one at the
boundary). -/
def load_svmlight (ls : List (List Char)) (zeroBased : Bool) : Except String ParseState :=
  match parse_file ls with
  | .error e => .error e
  | .ok st =>
    .ok (if zeroBased then st
         else { st with indices := st.indices.map (fun i => i - 1) })

/-- Decimal digit character. -/
def digitChar (n : ℕ) : Char := Char.ofNat (48 + n)

/-- Decimal rendering of a natural number with explicit fuel. -/
def renderNatF (fuel : ℕ) (n : ℕ) : List Char :=
  match fuel with
  | 0 => []
  | f + 1 =>
    if n < 10 then [digitChar n]
    else renderNatF f (n / 10) ++ [digitChar (n % 10)]

/-- Decimal rendering of a natural number, as the stream prints a
nonnegative integer (fuel n + 1 always suffices). -/
def renderNat (n : ℕ) : List Char := renderNatF (n + 1) n

/-- Number of decimal digits of a natural number (one digit for zero). -/
def digits10 (k : ℕ) : ℕ := (renderNat k).length

/-- Round num / den to the nearest natural number, ties to the even
neighbour, as the printf family rounds a decimal conversion under the
default FE_TONEAREST mode. -/
def roundHalfEven (num den : ℕ) : ℕ :=
  if 2 * (num % den) < den then num / den
  else if den < 2 * (num % den) then num / den + 1
  else if num / den % 2 = 0 then num / den else num / den + 1

/-- Fuel-driven search for the smallest k (starting from the given k) with
den ≤ num * 10 ^ k. -/
def smallKF (fuel num den k : ℕ) : ℕ :=
  match fuel with
  | 0 => k
  | f + 1 => if den ≤ num * 10 ^ k then k else smallKF f num den (k + 1)

/-- The smallest k with 1 ≤ k and den ≤ num * 10 ^ k; for num / den < 1 the
decimal exponent of num / den is -k.  Fuel digits10 den + 1 suffices since
den < 10 ^ digits10 den. -/
def smallK (num den : ℕ) : ℕ := smallKF (digits10 den + 1) num den 1

/-- Decimal exponent of the positive rational num / den: the e with
10 ^ e ≤ num / den < 10 ^ (e + 1). -/
def decExp (num den : ℕ) : ℤ :=
  if den ≤ num then (digits10 (num / den) : ℤ) - 1 else -(smallK num den : ℤ)

/-- The positive value num / den scaled into [10 ^ 5, 10 ^ 6) by its
decimal exponent and rounded half-even, i.e. rounded to six significant
digits. -/
def gMant (num den : ℕ) : ℕ :=
  if decExp num den ≤ 5 then
    roundHalfEven (num * 10 ^ (5 - decExp num den).toNat) den
  else roundHalfEven num (den * 10 ^ (decExp num den - 5).toNat)

/-- The mantissa and decimal exponent %g uses at its default precision six
for the positive value num / den: the value rounded half-even to six
significant digits, a rounding carry such as 999999.5 → 1e+06 folded into
the exponent. -/
def gFormat (num den : ℕ) : ℕ × ℤ :=
  if gMant num den = 10 ^ 6 then (10 ^ 5, decExp num den + 1)
  else (gMant num den, decExp num den)

/-- Drop trailing zero digits, as %g strips trailing fractional zeros. -/
def stripZerosRight (l : List Char) : List Char :=
  (l.reverse.dropWhile (fun c => c == '0')).reverse

/-- Exponent digits of a %g scientific rendering, zero-padded on the left
to width two ("e+06"). -/
def expDigits (x : ℤ) : List Char :=
  if (renderNat x.natAbs).length < 2 then '0' :: renderNat x.natAbs
  else renderNat x.natAbs

/-- Fixed-notation %g body for the six-digit mantissa m and decimal
exponent x in [-4, 5]: the first x + 1 digits, then the remaining digits
as the fraction with trailing zeros stripped; for negative x a leading
zero, the point, -x - 1 zeros and the mantissa digits stripped.  The point
is omitted when no fractional digit survives. -/
def fixBody (m : ℕ) (x : ℤ) : List Char :=
  if 0 ≤ x then
    (renderNat m).take (x.toNat + 1) ++
      (if (stripZerosRight ((renderNat m).drop (x.toNat + 1))).isEmpty then []
       else '.' :: stripZerosRight ((renderNat m).drop (x.toNat + 1)))
  else
    '0' ::
      (if (List.replicate (-x - 1).toNat '0' ++ stripZerosRight (renderNat m)).isEmpty
       then []
       else '.' :: (List.replicate (-x - 1).toNat '0' ++ stripZerosRight (renderNat m)))

/-- The rational a fixed-notation body denotes when parsed back. -/
def fixVal (m : ℕ) (x : ℤ) : ℚ :=
  if 0 ≤ x then
    mantissaVal false ((renderNat m).take (x.toNat + 1))
      (stripZerosRight ((renderNat m).drop (x.toNat + 1)))
  else
    mantissaVal false ['0']
      (List.replicate (-x - 1).toNat '0' ++ stripZerosRight (renderNat m))

/-- Scientific-notation %g body: the leading mantissa digit, the remaining
digits as a fraction with trailing zeros stripped (point omitted when none
survive), then the exponent marker, an explicit sign and the padded
exponent digits. -/
def sciBody (m : ℕ) (x : ℤ) : List Char :=
  (renderNat m).take 1 ++
    (if (stripZerosRight ((renderNat m).drop 1)).isEmpty then []
     else '.' :: stripZerosRight ((renderNat m).drop 1)) ++
    'e' :: (if x < 0 then '-' else '+') :: expDigits x

/-- The rational a scientific-notation body denotes when parsed back. -/
def sciVal (m : ℕ) (x : ℤ) : ℚ :=
  mantissaVal false ((renderNat m).take 1) (stripZerosRight ((renderNat m).drop 1)) *
    (10 : ℚ) ^ (if x < 0 then -(natVal (expDigits x) : ℤ) else (natVal (expDigits x) : ℤ))

/-- Decimal rendering of a double, modelling fout << d with the stream's
default flags, i.e. printf %g at precision six on the exact rational the
double denotes: zero prints as the single digit, otherwise the sign and
then the fixed body when the decimal exponent lies in [-4, 5] and the
scientific body otherwise. -/
def renderQ (q : ℚ) : List Char :=
  if q.num = 0 then ['0']
  else
    (if q.num < 0 then ['-'] else []) ++
      (if (gFormat q.num.natAbs q.den).2 < -4 ∨ 6 ≤ (gFormat q.num.natAbs q.den).2 then
        sciBody (gFormat q.num.natAbs q.den).1 (gFormat q.num.natAbs q.den).2
      else
        fixBody (gFormat q.num.natAbs q.den).1 (gFormat q.num.natAbs q.den).2)

/-- The rational that parsing the rendering of q yields; reparseQ q = q
says exactly that q survives the six-significant-digit rendering. -/
def reparseQ (q : ℚ) : ℚ :=
  if q.num = 0 then mantissaVal false ['0'] []
  else if q.num < 0 then
    -(if (gFormat q.num.natAbs q.den).2 < -4 ∨ 6 ≤ (gFormat q.num.natAbs q.den).2 then
        sciVal (gFormat q.num.natAbs q.den).1 (gFormat q.num.natAbs q.den).2
      else
        fixVal (gFormat q.num.natAbs q.den).1 (gFormat q.num.natAbs q.den).2)
  else
    (if (gFormat q.num.natAbs q.den).2 < -4 ∨ 6 ≤ (gFormat q.num.natAbs q.den).2 then
      sciVal (gFormat q.num.natAbs q.den).1 (gFormat q.num.natAbs q.den).2
    else
      fixVal (gFormat q.num.natAbs q.den).1 (gFormat q.num.natAbs q.den).2)

/-- Decimal rendering of a signed integer, as fout << idx prints an int. -/
def renderInt (i : ℤ) : List Char :=
  if i < 0 then '-' :: renderNat i.natAbs else renderNat i.natAbs

/-- One output line of dump_svmlight_file (cpp lines 385-396): the label and
a space, then for each jj in [indptr[i], indptr[i+1]) the index (incremented
unless zero_based), a colon, the value and a space, then unconditionally the
hash, a space, the row comment and a final space.  Out-of-range reads are
undefined behaviour in C++ and are modelled with default values. -/
def dumpLineAt (d : ParseState) (zeroBased : Bool) (i : ℕ) : List Char :=
  renderQ (d.labels.getD i 0) ++ [' '] ++
    ((List.range' (d.indptr.getD i 0)
        (d.indptr.getD (i + 1) 0 - d.indptr.getD i 0)).map
      (fun jj =>
        renderInt (d.indices.getD jj 0 + if zeroBased then 0 else 1) ++
          ':' :: renderQ (d.data.getD jj 0) ++ [' '])).flatten ++
    '#' :: ' ' :: (d.comments.getD i []) ++ [' ']

/-- dump_svmlight_file: n_samples = indptr length - 1 lines. -/
def dump_svmlight_file (d : ParseState) (zeroBased : Bool) : List (List Char) :=
  (List.range (d.indptr.length - 1)).map (dumpLineAt d zeroBased)

/-- The body of one written feature token, index colon value. -/
def featCore (zeroBased : Bool) (p : ℤ × ℚ) : List Char :=
  renderInt (p.1 + if zeroBased then 0 else 1) ++ ':' :: renderQ p.2

/-- The line the writer emits for one record. -/
def dumpLineRec (zeroBased : Bool) (r : SvmRecord) : List Char :=
  renderQ r.label ++ [' '] ++
    (r.features.map (fun p => featCore zeroBased p ++ [' '])).flatten ++
    '#' :: ' ' :: r.comment ++ [' ']

/-- The stream left after the label of a written line: a space, then the
remaining feature tokens, each followed by a space. -/
def featTail (zeroBased : Bool) (fs : List (ℤ × ℚ)) : List Char :=
  match fs with
  | [] => [' ']
  | p :: rest => ' ' :: featCore zeroBased p ++ featTail zeroBased rest

/-- The record a written record reads back as: indices shifted when not
zero_based, values as their renderings parse, the comment as the writer laid
it out after the hash. -/
def reRecord (zeroBased : Bool) (r : SvmRecord) : SvmRecord :=
  ⟨reparseQ r.label,
    r.features.map (fun p => (p.1 + (if zeroBased then 0 else 1), reparseQ p.2)),
    ' ' :: r.comment ++ [' ']⟩

/-- The CSR dataset assembled from a list of records: concatenated values
and indices, indptr as the running feature-count sums with the final
sentinel, parallel labels and comments. -/
def mkDataset (rs : List SvmRecord) : ParseState :=
  { data := (rs.map (fun r => r.features.map Prod.snd)).flatten
    indices := (rs.map (fun r => r.features.map Prod.fst)).flatten
    indptr := List.scanl (fun a b => a + b) 0 (rs.map (fun r => r.features.length))
    labels := rs.map (fun r => r.label)
    comments := rs.map (fun r => r.comment) }

/-- The records the parser extracts from a list of lines, none when some
line fails. -/
def recordsOf (ls : List (List Char)) : Option (List SvmRecord) :=
  match ls with
  | [] => some []
  | l :: rest =>
    match parseLineRec l with
    | .error _ => none
    | .ok none => recordsOf rest
    | .ok (some r) =>
      match recordsOf rest with
      | none => none
      | some rs => some (r :: rs)

/-- Well-formedness of one record for round-trip statements: at least one
feature (the parser rejects a written feature-free line with the missing
qid error) and indices whose shifted rendering fits a 32-bit int. -/
def goodRecord (r : SvmRecord) : Prop :=
  r.features ≠ [] ∧ ∀ p ∈ r.features, 0 ≤ p.1 ∧ p.1 + 1 < 2 ^ 31

instance (r : SvmRecord) : Decidable (goodRecord r) := by
  unfold goodRecord; infer_instance

/-- Every number of a record survives the writer's default
six-significant-digit stream formatting. -/
def exactRecord (r : SvmRecord) : Prop :=
  reparseQ r.label = r.label ∧ ∀ p ∈ r.features, reparseQ p.2 = p.2

instance (r : SvmRecord) : Decidable (exactRecord r) := by
  unfold exactRecord; infer_instance

/-- Concrete input lines of the scenarios considered below. -/
def c1line : List Char := "1.0 5-0.2".data

def c4line : List Char := "1.0".data

def c6line : List Char := "1.0 qid:3 5:0.2 7:1.5".data

def c7line : List Char := "# note".data

def c8badline : List Char := "1.0".data

def c8okline : List Char := "1 1:2".data

def scenarioLines : List (List Char) := ["-1 3:4.0".data, "1 2:1.0".data]

end Svmlight

namespace Svmlight

/-! Basic list and character lemmas. -/

theorem takeWhile_append_all {p : Char → Bool} {l r : List Char}
    (hl : ∀ c ∈ l, p c = true) (hr : ∀ c, r.head? = some c → p c = false) :
    (l ++ r).takeWhile p = l := by
  induction l with
  | nil =>
    cases r with
    | nil => rfl
    | cons c t => simp [List.takeWhile_cons, hr c rfl]
  | cons a t ih =>
    have ha : p a = true := hl a (by simp)
    simpa [List.takeWhile_cons, ha] using ih (fun c hc => hl c (by simp [hc]))

theorem dropWhile_append_all {p : Char → Bool} {l r : List Char}
    (hl : ∀ c ∈ l, p c = true) (hr : ∀ c, r.head? = some c → p c = false) :
    (l ++ r).dropWhile p = r := by
  induction l with
  | nil =>
    cases r with
    | nil => rfl
    | cons c t => simp [List.dropWhile_cons, hr c rfl]
  | cons a t ih =>
    have ha : p a = true := hl a (by simp)
    simpa [List.dropWhile_cons, ha] using ih (fun c hc => hl c (by simp [hc]))

theorem head?_append_left {l r : List Char} (h : l ≠ []) :
    (l ++ r).head? = l.head? := by
  cases l with
  | nil => exact absurd rfl h
  | cons a t => rfl

theorem findIdx_append_none {p : Char → Bool} {l : List Char} (r : List Char)
    (hl : ∀ c ∈ l, p c = false) :
    (l ++ r).findIdx p = l.length + r.findIdx p := by
  induction l with
  | nil => simp
  | cons a t ih =>
    have := ih (fun c hc => hl c (by simp [hc]))
    simp [List.findIdx_cons, hl a (by simp), this]
    omega

theorem drop_append_cons (l : List Char) (x : Char) (r : List Char) :
    (l ++ x :: r).drop (l.length + 1) = r := by
  induction l with
  | nil => simp
  | cons a t ih => simp [ih]

theorem isWs_toNat_lt {c : Char} (h : isWs c = true) : c.toNat < 48 := by
  simp [isWs] at h
  rcases h with ((((h | h) | h) | h) | h) | h <;> subst h <;> decide

theorem isDigitB_bounds {c : Char} (h : isDigitB c = true) :
    48 ≤ c.toNat ∧ c.toNat ≤ 57 := by
  simpa [isDigitB] using h

theorem isDigitB_not_ws {c : Char} (h : isDigitB c = true) : isWs c = false := by
  cases hw : isWs c with
  | false => rfl
  | true => exact absurd (isWs_toNat_lt hw) (by have := isDigitB_bounds h; omega)

theorem isDigitB_ne {c x : Char} (h : isDigitB c = true) (hx : isDigitB x = false) :
    c ≠ x := by
  intro hEq
  subst hEq
  rw [h] at hx
  cases hx


/-! Rendering lemmas. -/

theorem digitChar_isDigitB {n : ℕ} (h : n < 10) : isDigitB (digitChar n) = true := by
  interval_cases n <;> decide

theorem charVal_digitChar {n : ℕ} (h : n < 10) : charVal (digitChar n) = n := by
  interval_cases n <;> decide

theorem natVal_append_singleton (l : List Char) (c : Char) :
    natVal (l ++ [c]) = 10 * natVal l + charVal c := by
  simp [natVal, List.foldl_append]

theorem renderNatF_congr :
    ∀ (n f g : ℕ), n < f → n < g → renderNatF f n = renderNatF g n := by
  intro n
  induction n using Nat.strong_induction_on with
  | _ n ih =>
    intro f g hf hg
    match f, g with
    | f + 1, g + 1 =>
      by_cases h10 : n < 10
      · simp [renderNatF, h10]
      · simp only [renderNatF, if_neg h10]
        have hd : n / 10 < n := Nat.div_lt_self (by omega) (by omega)
        rw [ih (n / 10) hd f g (by omega) (by omega)]

theorem renderNat_unfold (n : ℕ) :
    renderNat n = if n < 10 then [digitChar n] else renderNat (n / 10) ++ [digitChar (n % 10)] := by
  by_cases h : n < 10
  · simp [renderNat, renderNatF, h]
  · have h1 : renderNat n = renderNatF (n + 1) n := rfl
    rw [h1]
    simp only [renderNatF, if_neg h]
    have hd : n / 10 < n := Nat.div_lt_self (by omega) (by omega)
    rw [renderNatF_congr (n / 10) n (n / 10 + 1) (by omega) (by omega)]
    simp [h, renderNat]

theorem renderNat_ne_nil (n : ℕ) : renderNat n ≠ [] := by
  rw [renderNat_unfold]
  by_cases h : n < 10 <;> simp [h]

theorem renderNat_digits (n : ℕ) : ∀ c ∈ renderNat n, isDigitB c = true := by
  induction n using Nat.strong_induction_on with
  | _ n ih =>
    intro c hc
    rw [renderNat_unfold] at hc
    by_cases h : n < 10
    · rw [if_pos h] at hc
      simp at hc
      subst hc
      exact digitChar_isDigitB h
    · rw [if_neg h] at hc
      rcases List.mem_append.mp hc with hc | hc
      · exact ih (n / 10) (Nat.div_lt_self (by omega) (by omega)) c hc
      · simp at hc
        subst hc
        exact digitChar_isDigitB (Nat.mod_lt _ (by omega))

theorem natVal_renderNat (n : ℕ) : natVal (renderNat n) = n := by
  induction n using Nat.strong_induction_on with
  | _ n ih =>
    rw [renderNat_unfold]
    by_cases h : n < 10
    · simp [if_pos h, natVal, charVal_digitChar h]
    · rw [if_neg h, natVal_append_singleton,
        ih (n / 10) (Nat.div_lt_self (by omega) (by omega)),
        charVal_digitChar (Nat.mod_lt _ (by omega))]
      omega

theorem mem_stripZerosRight {l : List Char} {c : Char} (hc : c ∈ stripZerosRight l) :
    c ∈ l := by
  unfold stripZerosRight at hc
  rw [List.mem_reverse] at hc
  have h2 : c ∈ l.reverse := (List.dropWhile_sublist _).subset hc
  rwa [List.mem_reverse] at h2

theorem stripZerosRight_digits {l : List Char} (hl : ∀ c ∈ l, isDigitB c = true) :
    ∀ c ∈ stripZerosRight l, isDigitB c = true :=
  fun c hc => hl c (mem_stripZerosRight hc)

theorem take_digits {l : List Char} (n : ℕ) (hl : ∀ c ∈ l, isDigitB c = true) :
    ∀ c ∈ l.take n, isDigitB c = true :=
  fun c hc => hl c ((List.take_sublist n l).subset hc)

theorem drop_digits {l : List Char} (n : ℕ) (hl : ∀ c ∈ l, isDigitB c = true) :
    ∀ c ∈ l.drop n, isDigitB c = true :=
  fun c hc => hl c ((List.drop_sublist n l).subset hc)

theorem replicate_zero_digits (n : ℕ) :
    ∀ c ∈ List.replicate n '0', isDigitB c = true := by
  intro c hc
  rw [List.mem_replicate] at hc
  rw [hc.2]
  decide

theorem take_succ_ne_nil {l : List Char} (h : l ≠ []) (n : ℕ) : l.take (n + 1) ≠ [] := by
  cases l with
  | nil => exact absurd rfl h
  | cons a t => simp

theorem expDigits_digits (x : ℤ) : ∀ c ∈ expDigits x, isDigitB c = true := by
  intro c hc
  unfold expDigits at hc
  by_cases h : (renderNat x.natAbs).length < 2
  · rw [if_pos h, List.mem_cons] at hc
    rcases hc with hc | hc
    · rw [hc]; decide
    · exact renderNat_digits _ c hc
  · rw [if_neg h] at hc
    exact renderNat_digits _ c hc

theorem expDigits_ne_nil (x : ℤ) : expDigits x ≠ [] := by
  unfold expDigits
  by_cases h : (renderNat x.natAbs).length < 2
  · rw [if_pos h]
    simp
  · rw [if_neg h]
    exact renderNat_ne_nil _

theorem fixBody_chars {m : ℕ} {x : ℤ} {c : Char} (hc : c ∈ fixBody m x) :
    isDigitB c = true ∨ c = '.' := by
  unfold fixBody at hc
  by_cases hx : 0 ≤ x
  · rw [if_pos hx, List.mem_append] at hc
    rcases hc with h | h
    · exact Or.inl (take_digits _ (renderNat_digits m) c h)
    · by_cases he : (stripZerosRight ((renderNat m).drop (x.toNat + 1))).isEmpty
      · rw [if_pos he] at h
        cases h
      · rw [if_neg he, List.mem_cons] at h
        rcases h with h | h
        · exact Or.inr h
        · exact Or.inl (stripZerosRight_digits (drop_digits _ (renderNat_digits m)) c h)
  · rw [if_neg hx, List.mem_cons] at hc
    rcases hc with h | h
    · rw [h]; exact Or.inl (by decide)
    · by_cases he : (List.replicate (-x - 1).toNat '0' ++
          stripZerosRight (renderNat m)).isEmpty
      · rw [if_pos he] at h
        cases h
      · rw [if_neg he, List.mem_cons] at h
        rcases h with h | h
        · exact Or.inr h
        · rw [List.mem_append] at h
          rcases h with h | h
          · exact Or.inl (replicate_zero_digits _ c h)
          · exact Or.inl (stripZerosRight_digits (renderNat_digits m) c h)

theorem sciBody_chars {m : ℕ} {x : ℤ} {c : Char} (hc : c ∈ sciBody m x) :
    isDigitB c = true ∨ c = '.' ∨ c = 'e' ∨ c = '-' ∨ c = '+' := by
  unfold sciBody at hc
  simp only [List.mem_append, List.mem_cons] at hc
  rcases hc with (h | h) | h | h
  · exact Or.inl (take_digits _ (renderNat_digits m) c h)
  · by_cases he : (stripZerosRight ((renderNat m).drop 1)).isEmpty
    · rw [if_pos he] at h
      cases h
    · rw [if_neg he, List.mem_cons] at h
      rcases h with h | h
      · exact Or.inr (Or.inl h)
      · exact Or.inl (stripZerosRight_digits (drop_digits _ (renderNat_digits m)) c h)
  · exact Or.inr (Or.inr (Or.inl h))
  · rcases h with h | h
    · by_cases hxn : x < 0
      · rw [if_pos hxn] at h
        exact Or.inr (Or.inr (Or.inr (Or.inl h)))
      · rw [if_neg hxn] at h
        exact Or.inr (Or.inr (Or.inr (Or.inr h)))
    · exact Or.inl (expDigits_digits x c h)

theorem fixBody_ne_nil (m : ℕ) (x : ℤ) : fixBody m x ≠ [] := by
  unfold fixBody
  by_cases hx : 0 ≤ x
  · rw [if_pos hx]
    intro h
    rw [List.append_eq_nil] at h
    exact take_succ_ne_nil (renderNat_ne_nil m) x.toNat h.1
  · rw [if_neg hx]
    simp

theorem sciBody_ne_nil (m : ℕ) (x : ℤ) : sciBody m x ≠ [] := by
  unfold sciBody
  intro h
  rw [List.append_assoc, List.append_eq_nil] at h
  exact take_succ_ne_nil (renderNat_ne_nil m) 0 h.1

theorem renderQ_ne_nil (q : ℚ) : renderQ q ≠ [] := by
  unfold renderQ
  by_cases h0 : q.num = 0
  · rw [if_pos h0]
    simp
  · rw [if_neg h0]
    intro h
    rw [List.append_eq_nil] at h
    by_cases hsci : (gFormat q.num.natAbs q.den).2 < -4 ∨ 6 ≤ (gFormat q.num.natAbs q.den).2
    · rw [if_pos hsci] at h
      exact sciBody_ne_nil _ _ h.2
    · rw [if_neg hsci] at h
      exact fixBody_ne_nil _ _ h.2

theorem renderQ_chars {q : ℚ} {c : Char} (hc : c ∈ renderQ q) :
    isDigitB c = true ∨ c = '-' ∨ c = '.' ∨ c = 'e' ∨ c = '+' := by
  unfold renderQ at hc
  by_cases h0 : q.num = 0
  · rw [if_pos h0] at hc
    simp at hc
    rw [hc]
    exact Or.inl (by decide)
  · rw [if_neg h0, List.mem_append] at hc
    rcases hc with hc | hc
    · by_cases hn : q.num < 0
      · rw [if_pos hn] at hc
        simp at hc
        exact Or.inr (Or.inl hc)
      · rw [if_neg hn] at hc
        cases hc
    · by_cases hsci : (gFormat q.num.natAbs q.den).2 < -4 ∨
          6 ≤ (gFormat q.num.natAbs q.den).2
      · rw [if_pos hsci] at hc
        rcases sciBody_chars hc with h | h | h | h | h
        · exact Or.inl h
        · exact Or.inr (Or.inr (Or.inl h))
        · exact Or.inr (Or.inr (Or.inr (Or.inl h)))
        · exact Or.inr (Or.inl h)
        · exact Or.inr (Or.inr (Or.inr (Or.inr h)))
      · rw [if_neg hsci] at hc
        rcases fixBody_chars hc with h | h
        · exact Or.inl h
        · exact Or.inr (Or.inr (Or.inl h))

theorem renderInt_chars {i : ℤ} {c : Char} (hc : c ∈ renderInt i) :
    isDigitB c = true ∨ c = '-' := by
  unfold renderInt at hc
  by_cases hn : i < 0
  · rw [if_pos hn, List.mem_cons] at hc
    rcases hc with hc | hc
    · exact Or.inr hc
    · exact Or.inl (renderNat_digits _ c hc)
  · rw [if_neg hn] at hc
    exact Or.inl (renderNat_digits _ c hc)


/-! Parser evaluation on rendered shapes. -/

theorem skipWs_of_head {s : List Char} (h : ∀ c, s.head? = some c → isWs c = false) :
    skipWs s = s := by
  cases s with
  | nil => rfl
  | cons a t => simp [skipWs, List.dropWhile_cons, h a rfl]

theorem skipWs_cons_space (s : List Char) : skipWs (' ' :: s) = skipWs s := by
  simp [skipWs, List.dropWhile_cons, isWs]

theorem digitsPart_shape {ds rest : List Char} (hds : ∀ c ∈ ds, isDigitB c = true)
    (hne : ds ≠ []) (hr : ∀ c, rest.head? = some c → isDigitB c = false) :
    digitsPart (ds ++ rest) = some (natVal ds, rest) := by
  simp only [digitsPart]
  rw [takeWhile_append_all hds hr, dropWhile_append_all hds hr,
    List.isEmpty_eq_false.mpr hne]
  simp

theorem parseUInt_cons_space (s : List Char) : parseUInt (' ' :: s) = parseUInt s := by
  simp only [parseUInt, skipWs_cons_space]

theorem parseUInt_shape {ds rest : List Char} (hds : ∀ c ∈ ds, isDigitB c = true)
    (hne : ds ≠ []) (hr : ∀ c, rest.head? = some c → isDigitB c = false) :
    parseUInt (ds ++ rest) = some (natVal ds % 2 ^ 32, rest) := by
  obtain ⟨d, ds2, rfl⟩ : ∃ d ds2, ds = d :: ds2 := by
    cases ds with
    | nil => exact absurd rfl hne
    | cons d t => exact ⟨d, t, rfl⟩
  have hd : isDigitB d = true := hds d (by simp)
  have hskip : skipWs (d :: (ds2 ++ rest)) = d :: (ds2 ++ rest) :=
    skipWs_of_head (by intro c hc; cases hc; exact isDigitB_not_ws hd)
  have hminus : (d == '-') = false := beq_eq_false_iff_ne.mpr (isDigitB_ne hd (by decide))
  have hplus : (d == '+') = false := beq_eq_false_iff_ne.mpr (isDigitB_ne hd (by decide))
  have hdp : digitsPart ((d :: ds2) ++ rest) = some (natVal (d :: ds2), rest) :=
    digitsPart_shape hds hne hr
  simp only [List.cons_append] at hdp
  simp only [parseUInt, List.cons_append, hskip, hminus, hplus, hdp, Bool.false_eq_true,
    if_false]

theorem readCharSkip_cons {c : Char} (s : List Char) (h : isWs c = false) :
    readCharSkip (c :: s) = some (c, s) := by
  simp [readCharSkip, skipWs, List.dropWhile_cons, h]

theorem parseExp_none {t : List Char} (ht : t.head? = none ∨ t.head? = some ' ') :
    parseExp t = none := by
  rcases ht with h | h <;> simp [parseExp, h]

theorem parseDoubleBody_shape {ip fp t : List Char} (hip : ∀ c ∈ ip, isDigitB c = true)
    (hfp : ∀ c ∈ fp, isDigitB c = true) (hne : ip ≠ [])
    (ht : t.head? = none ∨ t.head? = some ' ') (neg : Bool) :
    parseDoubleBody neg (ip ++ (if fp.isEmpty then [] else '.' :: fp) ++ t) =
      some (mantissaVal neg ip fp, t) := by
  have htd : ∀ c, t.head? = some c → isDigitB c = false := by
    intro c hc
    rcases ht with h | h
    · rw [h] at hc; cases hc
    · rw [h] at hc
      injection hc with hc
      subst hc
      decide
  have hipe : ip.isEmpty = false := List.isEmpty_eq_false.mpr hne
  have hexp : parseExp t = none := parseExp_none ht
  by_cases hfpe : fp.isEmpty
  · have hfp0 : fp = [] := List.isEmpty_iff.mp hfpe
    subst hfp0
    rw [show ip ++ (if ([] : List Char).isEmpty then [] else '.' :: ([] : List Char)) ++ t
        = ip ++ t by simp]
    simp only [parseDoubleBody,
      takeWhile_append_all hip htd, dropWhile_append_all hip htd]
    have hhd : ¬ t.head? = some '.' := by
      rcases ht with h | h <;> rw [h] <;> simp
    rw [if_neg hhd, hipe, hexp]
    simp
  · have hfpne : fp ≠ [] := fun h => by rw [h] at hfpe; exact hfpe rfl
    rw [if_neg hfpe]
    have hmid : ∀ c, ('.' :: fp ++ t).head? = some c → isDigitB c = false := by
      intro c hc
      injection hc with hc
      subst hc
      decide
    simp only [parseDoubleBody, List.append_assoc, List.cons_append]
    rw [takeWhile_append_all hip (by intro c hc; injection hc with hc; subst hc; decide),
      dropWhile_append_all hip (by intro c hc; injection hc with hc; subst hc; decide)]
    simp only [List.head?_cons, Option.some.injEq, if_pos rfl, List.tail_cons]
    rw [takeWhile_append_all hfp htd, dropWhile_append_all hfp htd, hipe, hexp]
    simp

theorem parseDouble_shape_pos {ip fp t : List Char} (hip : ∀ c ∈ ip, isDigitB c = true)
    (hfp : ∀ c ∈ fp, isDigitB c = true) (hne : ip ≠ [])
    (ht : t.head? = none ∨ t.head? = some ' ') :
    parseDouble (ip ++ (if fp.isEmpty then [] else '.' :: fp) ++ t) =
      some (mantissaVal false ip fp, t) := by
  obtain ⟨d, ds2, rfl⟩ : ∃ d ds2, ip = d :: ds2 := by
    cases ip with
    | nil => exact absurd rfl hne
    | cons d t2 => exact ⟨d, t2, rfl⟩
  have hd : isDigitB d = true := hip d (by simp)
  have hskip : skipWs (d :: (ds2 ++ ((if fp.isEmpty then [] else '.' :: fp) ++ t))) =
      d :: (ds2 ++ ((if fp.isEmpty then [] else '.' :: fp) ++ t)) :=
    skipWs_of_head (by intro c hc; cases hc; exact isDigitB_not_ws hd)
  have hbody := parseDoubleBody_shape hip hfp hne ht false
  simp only [List.cons_append, List.append_assoc] at hbody
  simp only [parseDouble, List.cons_append, List.append_assoc, hskip, List.head?_cons,
    Option.some.injEq]
  rw [if_neg (isDigitB_ne hd (by decide)), if_neg (isDigitB_ne hd (by decide))]
  exact hbody

theorem parseDouble_shape_neg {ip fp t : List Char} (hip : ∀ c ∈ ip, isDigitB c = true)
    (hfp : ∀ c ∈ fp, isDigitB c = true) (hne : ip ≠ [])
    (ht : t.head? = none ∨ t.head? = some ' ') :
    parseDouble ('-' :: (ip ++ (if fp.isEmpty then [] else '.' :: fp) ++ t)) =
      some (mantissaVal true ip fp, t) := by
  have hskip : skipWs ('-' :: (ip ++ (if fp.isEmpty then [] else '.' :: fp) ++ t)) =
      '-' :: (ip ++ (if fp.isEmpty then [] else '.' :: fp) ++ t) :=
    skipWs_of_head (by intro c hc; cases hc; decide)
  have hbody := parseDoubleBody_shape hip hfp hne ht true
  simp only [List.append_assoc] at hbody
  simp only [parseDouble, List.append_assoc, hskip, List.head?_cons, Option.some.injEq,
    if_pos rfl, List.tail_cons]
  exact hbody

theorem parseExp_shape {ds : List Char} {sgn : Char} (t : List Char)
    (hds : ∀ c ∈ ds, isDigitB c = true) (hne : ds ≠ [])
    (hsgn : sgn = '+' ∨ sgn = '-')
    (ht : ∀ c, t.head? = some c → isDigitB c = false) :
    parseExp ('e' :: sgn :: (ds ++ t)) =
      some (if sgn = '-' then -(natVal ds : ℤ) else (natVal ds : ℤ), t) := by
  have hdp : digitsPart (ds ++ t) = some (natVal ds, t) := digitsPart_shape hds hne ht
  rcases hsgn with h | h <;> subst h <;>
    simp [parseExp, hdp]

theorem parseDoubleBody_shape_exp {ip fp ds : List Char} {sgn : Char} {t : List Char}
    (hip : ∀ c ∈ ip, isDigitB c = true) (hfp : ∀ c ∈ fp, isDigitB c = true)
    (hds : ∀ c ∈ ds, isDigitB c = true) (hne : ip ≠ []) (hdne : ds ≠ [])
    (hsgn : sgn = '+' ∨ sgn = '-')
    (ht : t.head? = none ∨ t.head? = some ' ') (neg : Bool) :
    parseDoubleBody neg
        (ip ++ (if fp.isEmpty then [] else '.' :: fp) ++ ('e' :: sgn :: (ds ++ t))) =
      some (mantissaVal neg ip fp *
        (10 : ℚ) ^ (if sgn = '-' then -(natVal ds : ℤ) else (natVal ds : ℤ)), t) := by
  have htd : ∀ c, t.head? = some c → isDigitB c = false := by
    intro c hc
    rcases ht with h | h
    · rw [h] at hc; cases hc
    · rw [h] at hc
      injection hc with hc
      subst hc
      decide
  have hmid : ∀ c, ('e' :: sgn :: (ds ++ t)).head? = some c → isDigitB c = false := by
    intro c hc
    injection hc with hc
    subst hc
    decide
  have hipe : ip.isEmpty = false := List.isEmpty_eq_false.mpr hne
  have hexp := parseExp_shape t hds hdne hsgn htd
  by_cases hfpe : fp.isEmpty
  · have hfp0 : fp = [] := List.isEmpty_iff.mp hfpe
    subst hfp0
    rw [show ip ++ (if ([] : List Char).isEmpty then [] else '.' :: ([] : List Char)) ++
        ('e' :: sgn :: (ds ++ t)) = ip ++ ('e' :: sgn :: (ds ++ t)) by simp]
    simp only [parseDoubleBody,
      takeWhile_append_all hip hmid, dropWhile_append_all hip hmid]
    have hhd : ¬ ('e' :: sgn :: (ds ++ t)).head? = some '.' := by simp
    rw [if_neg hhd, hipe, hexp]
    simp
  · have hfpne : fp ≠ [] := fun h => by rw [h] at hfpe; exact hfpe rfl
    rw [if_neg hfpe]
    simp only [parseDoubleBody, List.append_assoc, List.cons_append]
    rw [takeWhile_append_all hip (by intro c hc; injection hc with hc; subst hc; decide),
      dropWhile_append_all hip (by intro c hc; injection hc with hc; subst hc; decide)]
    simp only [List.head?_cons, Option.some.injEq, if_pos rfl, List.tail_cons]
    rw [takeWhile_append_all hfp hmid, dropWhile_append_all hfp hmid, hipe, hexp]
    simp

theorem parseDouble_shape_pos_exp {ip fp ds : List Char} {sgn : Char} {t : List Char}
    (hip : ∀ c ∈ ip, isDigitB c = true) (hfp : ∀ c ∈ fp, isDigitB c = true)
    (hds : ∀ c ∈ ds, isDigitB c = true) (hne : ip ≠ []) (hdne : ds ≠ [])
    (hsgn : sgn = '+' ∨ sgn = '-')
    (ht : t.head? = none ∨ t.head? = some ' ') :
    parseDouble (ip ++ (if fp.isEmpty then [] else '.' :: fp) ++
        ('e' :: sgn :: (ds ++ t))) =
      some (mantissaVal false ip fp *
        (10 : ℚ) ^ (if sgn = '-' then -(natVal ds : ℤ) else (natVal ds : ℤ)), t) := by
  obtain ⟨d, ds2, rfl⟩ : ∃ d ds2, ip = d :: ds2 := by
    cases ip with
    | nil => exact absurd rfl hne
    | cons d t2 => exact ⟨d, t2, rfl⟩
  have hd : isDigitB d = true := hip d (by simp)
  have hskip : skipWs (d :: (ds2 ++ ((if fp.isEmpty then [] else '.' :: fp) ++
      ('e' :: sgn :: (ds ++ t))))) =
      d :: (ds2 ++ ((if fp.isEmpty then [] else '.' :: fp) ++
        ('e' :: sgn :: (ds ++ t)))) :=
    skipWs_of_head (by intro c hc; cases hc; exact isDigitB_not_ws hd)
  have hbody := parseDoubleBody_shape_exp hip hfp hds hne hdne hsgn ht false
  simp only [List.cons_append, List.append_assoc] at hbody
  simp only [parseDouble, List.cons_append, List.append_assoc, hskip, List.head?_cons,
    Option.some.injEq]
  rw [if_neg (isDigitB_ne hd (by decide)), if_neg (isDigitB_ne hd (by decide))]
  exact hbody

theorem parseDouble_shape_neg_exp {ip fp ds : List Char} {sgn : Char} {t : List Char}
    (hip : ∀ c ∈ ip, isDigitB c = true) (hfp : ∀ c ∈ fp, isDigitB c = true)
    (hds : ∀ c ∈ ds, isDigitB c = true) (hne : ip ≠ []) (hdne : ds ≠ [])
    (hsgn : sgn = '+' ∨ sgn = '-')
    (ht : t.head? = none ∨ t.head? = some ' ') :
    parseDouble ('-' :: (ip ++ (if fp.isEmpty then [] else '.' :: fp) ++
        ('e' :: sgn :: (ds ++ t)))) =
      some (mantissaVal true ip fp *
        (10 : ℚ) ^ (if sgn = '-' then -(natVal ds : ℤ) else (natVal ds : ℤ)), t) := by
  have hskip : skipWs ('-' :: (ip ++ (if fp.isEmpty then [] else '.' :: fp) ++
      ('e' :: sgn :: (ds ++ t)))) =
      '-' :: (ip ++ (if fp.isEmpty then [] else '.' :: fp) ++
        ('e' :: sgn :: (ds ++ t))) :=
    skipWs_of_head (by intro c hc; cases hc; decide)
  have hbody := parseDoubleBody_shape_exp hip hfp hds hne hdne hsgn ht true
  simp only [List.append_assoc] at hbody
  simp only [parseDouble, List.append_assoc, hskip, List.head?_cons, Option.some.injEq,
    if_pos rfl, List.tail_cons]
  exact hbody

theorem mantissaVal_true (ip fp : List Char) :
    mantissaVal true ip fp = -mantissaVal false ip fp := by
  simp [mantissaVal]

theorem parseDouble_fixBody_pos (m : ℕ) (x : ℤ) (t : List Char)
    (ht : t.head? = none ∨ t.head? = some ' ') :
    parseDouble (fixBody m x ++ t) = some (fixVal m x, t) := by
  by_cases hx : 0 ≤ x
  · unfold fixBody fixVal
    rw [if_pos hx, if_pos hx]
    exact parseDouble_shape_pos (take_digits _ (renderNat_digits m))
      (stripZerosRight_digits (drop_digits _ (renderNat_digits m)))
      (take_succ_ne_nil (renderNat_ne_nil m) x.toNat) ht
  · unfold fixBody fixVal
    rw [if_neg hx, if_neg hx]
    have h1 : ∀ c ∈ ['0'], isDigitB c = true := by decide
    have h2 : ∀ c ∈ List.replicate (-x - 1).toNat '0' ++ stripZerosRight (renderNat m),
        isDigitB c = true := by
      intro c hc
      rw [List.mem_append] at hc
      rcases hc with h | h
      · exact replicate_zero_digits _ c h
      · exact stripZerosRight_digits (renderNat_digits m) c h
    have h := parseDouble_shape_pos h1 h2 (by simp) ht
    simpa using h

theorem parseDouble_fixBody_neg (m : ℕ) (x : ℤ) (t : List Char)
    (ht : t.head? = none ∨ t.head? = some ' ') :
    parseDouble ('-' :: (fixBody m x ++ t)) = some (-fixVal m x, t) := by
  by_cases hx : 0 ≤ x
  · unfold fixBody fixVal
    rw [if_pos hx, if_pos hx]
    have h := parseDouble_shape_neg (take_digits (x.toNat + 1) (renderNat_digits m))
      (stripZerosRight_digits (drop_digits (x.toNat + 1) (renderNat_digits m)))
      (take_succ_ne_nil (renderNat_ne_nil m) x.toNat) ht
    rw [mantissaVal_true] at h
    exact h
  · unfold fixBody fixVal
    rw [if_neg hx, if_neg hx]
    have h1 : ∀ c ∈ ['0'], isDigitB c = true := by decide
    have h2 : ∀ c ∈ List.replicate (-x - 1).toNat '0' ++ stripZerosRight (renderNat m),
        isDigitB c = true := by
      intro c hc
      rw [List.mem_append] at hc
      rcases hc with h | h
      · exact replicate_zero_digits _ c h
      · exact stripZerosRight_digits (renderNat_digits m) c h
    have h := parseDouble_shape_neg h1 h2 (by simp) ht
    rw [mantissaVal_true] at h
    simpa using h

theorem parseDouble_sciBody_pos (m : ℕ) (x : ℤ) (t : List Char)
    (ht : t.head? = none ∨ t.head? = some ' ') :
    parseDouble (sciBody m x ++ t) = some (sciVal m x, t) := by
  have hip := take_digits 1 (renderNat_digits m)
  have hfp := stripZerosRight_digits (drop_digits 1 (renderNat_digits m))
  have hne : (renderNat m).take 1 ≠ [] := take_succ_ne_nil (renderNat_ne_nil m) 0
  by_cases hxn : x < 0
  · have h := parseDouble_shape_pos_exp hip hfp (expDigits_digits x) hne
      (expDigits_ne_nil x) (Or.inr rfl) ht
    unfold sciBody sciVal
    rw [if_pos hxn, if_pos hxn]
    simp only [List.append_assoc, List.cons_append] at h ⊢
    simpa using h
  · have h := parseDouble_shape_pos_exp hip hfp (expDigits_digits x) hne
      (expDigits_ne_nil x) (Or.inl rfl) ht
    unfold sciBody sciVal
    rw [if_neg hxn, if_neg hxn]
    simp only [List.append_assoc, List.cons_append] at h ⊢
    simpa using h

theorem parseDouble_sciBody_neg (m : ℕ) (x : ℤ) (t : List Char)
    (ht : t.head? = none ∨ t.head? = some ' ') :
    parseDouble ('-' :: (sciBody m x ++ t)) = some (-sciVal m x, t) := by
  have hip := take_digits 1 (renderNat_digits m)
  have hfp := stripZerosRight_digits (drop_digits 1 (renderNat_digits m))
  have hne : (renderNat m).take 1 ≠ [] := take_succ_ne_nil (renderNat_ne_nil m) 0
  by_cases hxn : x < 0
  · have h := parseDouble_shape_neg_exp hip hfp (expDigits_digits x) hne
      (expDigits_ne_nil x) (Or.inr rfl) ht
    rw [mantissaVal_true, neg_mul] at h
    unfold sciBody sciVal
    rw [if_pos hxn, if_pos hxn]
    simp only [List.append_assoc, List.cons_append] at h ⊢
    simpa using h
  · have h := parseDouble_shape_neg_exp hip hfp (expDigits_digits x) hne
      (expDigits_ne_nil x) (Or.inl rfl) ht
    rw [mantissaVal_true, neg_mul] at h
    unfold sciBody sciVal
    rw [if_neg hxn, if_neg hxn]
    simp only [List.append_assoc, List.cons_append] at h ⊢
    simpa using h

theorem parseDouble_renderQ (q : ℚ) (t : List Char)
    (ht : t.head? = none ∨ t.head? = some ' ') :
    parseDouble (renderQ q ++ t) = some (reparseQ q, t) := by
  by_cases h0 : q.num = 0
  · unfold renderQ reparseQ
    rw [if_pos h0, if_pos h0]
    have h1 : ∀ c ∈ ['0'], isDigitB c = true := by decide
    have h2 : ∀ c ∈ ([] : List Char), isDigitB c = true := by simp
    have h := parseDouble_shape_pos h1 h2 (by simp) ht
    simpa using h
  · unfold renderQ reparseQ
    rw [if_neg h0, if_neg h0]
    by_cases hn : q.num < 0
    · rw [if_pos hn, if_pos hn]
      by_cases hsci : (gFormat q.num.natAbs q.den).2 < -4 ∨
          6 ≤ (gFormat q.num.natAbs q.den).2
      · rw [if_pos hsci, if_pos hsci]
        have h := parseDouble_sciBody_neg (gFormat q.num.natAbs q.den).1
          (gFormat q.num.natAbs q.den).2 t ht
        simpa using h
      · rw [if_neg hsci, if_neg hsci]
        have h := parseDouble_fixBody_neg (gFormat q.num.natAbs q.den).1
          (gFormat q.num.natAbs q.den).2 t ht
        simpa using h
    · rw [if_neg hn, if_neg hn]
      by_cases hsci : (gFormat q.num.natAbs q.den).2 < -4 ∨
          6 ≤ (gFormat q.num.natAbs q.den).2
      · rw [if_pos hsci, if_pos hsci]
        have h := parseDouble_sciBody_pos (gFormat q.num.natAbs q.den).1
          (gFormat q.num.natAbs q.den).2 t ht
        simpa using h
      · rw [if_neg hsci, if_neg hsci]
        have h := parseDouble_fixBody_pos (gFormat q.num.natAbs q.den).1
          (gFormat q.num.natAbs q.den).2 t ht
        simpa using h


theorem renderInt_nonneg {i : ℤ} (h : 0 ≤ i) : renderInt i = renderNat i.natAbs := by
  unfold renderInt
  rw [if_neg (by omega)]

theorem featChar_not_ws {c : Char}
    (h : isDigitB c = true ∨ c = '-' ∨ c = '.' ∨ c = ':' ∨ c = 'e' ∨ c = '+') :
    isWs c = false := by
  rcases h with h | h | h | h | h | h
  · exact isDigitB_not_ws h
  · subst h; decide
  · subst h; decide
  · subst h; decide
  · subst h; decide
  · subst h; decide

theorem featChar_not_hash {c : Char}
    (h : isDigitB c = true ∨ c = '-' ∨ c = '.' ∨ c = ':' ∨ c = 'e' ∨ c = '+') :
    (c == '#') = false := by
  rcases h with h | h | h | h | h | h
  · exact beq_eq_false_iff_ne.mpr (isDigitB_ne h (by decide))
  · subst h; decide
  · subst h; decide
  · subst h; decide
  · subst h; decide
  · subst h; decide

theorem featCore_chars {zb : Bool} {p : ℤ × ℚ} {c : Char} (hc : c ∈ featCore zb p) :
    isDigitB c = true ∨ c = '-' ∨ c = '.' ∨ c = ':' ∨ c = 'e' ∨ c = '+' := by
  unfold featCore at hc
  simp only [List.mem_append, List.mem_cons] at hc
  rcases hc with hc | hc | hc
  · rcases renderInt_chars hc with h | h
    · exact Or.inl h
    · exact Or.inr (Or.inl h)
  · exact Or.inr (Or.inr (Or.inr (Or.inl hc)))
  · rcases renderQ_chars hc with h | h | h | h | h
    · exact Or.inl h
    · exact Or.inr (Or.inl h)
    · exact Or.inr (Or.inr (Or.inl h))
    · exact Or.inr (Or.inr (Or.inr (Or.inr (Or.inl h))))
    · exact Or.inr (Or.inr (Or.inr (Or.inr (Or.inr h))))

theorem featCore_ne_nil (zb : Bool) (p : ℤ × ℚ) : featCore zb p ≠ [] := by
  unfold featCore renderInt
  by_cases h : p.1 + (if zb then 0 else 1) < 0 <;> simp [h, renderNat_ne_nil]

theorem featTail_head (zb : Bool) (fs : List (ℤ × ℚ)) :
    (featTail zb fs).head? = some ' ' := by
  cases fs with
  | nil => rfl
  | cons p rest =>
    show (' ' :: (featCore zb p ++ featTail zb rest)).head? = some ' '
    rfl

theorem parseToken_shape {tok rest : List Char} (hne : tok ≠ [])
    (htok : ∀ c ∈ tok, isWs c = false) (hr : rest.head? = some ' ') :
    parseToken (' ' :: (tok ++ rest)) = some (tok, rest) := by
  have hpred : ∀ c ∈ tok, (!(isWs c)) = true := by
    intro c hc; rw [htok c hc]; rfl
  have hrr : ∀ c, rest.head? = some c → (!(isWs c)) = false := by
    intro c hc
    rw [hr] at hc
    injection hc with hc
    subst hc
    decide
  have hskip : skipWs (tok ++ rest) = tok ++ rest := by
    refine skipWs_of_head ?_
    intro c hc
    rw [head?_append_left hne] at hc
    cases tok with
    | nil => exact absurd rfl hne
    | cons a t =>
      injection hc with hc
      subst hc
      exact htok a (by simp)
  simp only [parseToken, skipWs_cons_space, hskip,
    takeWhile_append_all hpred hrr, dropWhile_append_all hpred hrr,
    List.isEmpty_eq_false.mpr hne]
  simp

theorem scanQid_digit_head {d : Char} {s : List Char} (hd : isDigitB d = true) :
    scanQid (d :: s) = false := by
  have hne : (d :: s).take 4 ≠ ['q', 'i', 'd', ':'] := by
    simp only [List.take_succ_cons]
    intro h
    injection h with h1 _
    exact isDigitB_ne hd (by decide) h1
  unfold scanQid
  rw [if_neg hne]

theorem scanFeature_shape (m : ℕ) (v : ℚ) :
    scanFeature (renderNat m ++ ':' :: renderQ v) =
      some (natVal (renderNat m) % 2 ^ 32, ':', reparseQ v) := by
  have h1 : parseUInt (renderNat m ++ ':' :: renderQ v) =
      some (natVal (renderNat m) % 2 ^ 32, ':' :: renderQ v) :=
    parseUInt_shape (renderNat_digits m) (renderNat_ne_nil m)
      (by intro c hc; injection hc with hc; subst hc; decide)
  have h2 : parseDouble (renderQ v) = some (reparseQ v, []) := by
    have := parseDouble_renderQ v [] (Or.inl rfl)
    simpa using this
  simp only [scanFeature, h1, readCharRaw, h2]

theorem featLoopF_featTail (zb : Bool) :
    ∀ (fs : List (ℤ × ℚ)) (fuel : ℕ), (featTail zb fs).length ≤ fuel →
      (∀ p ∈ fs, 0 ≤ p.1 + (if zb then 0 else 1) ∧
        p.1 + (if zb then 0 else 1) < 2 ^ 31) →
      featLoopF fuel (featTail zb fs) =
        .ok (fs.map (fun p => (p.1 + (if zb then 0 else 1), reparseQ p.2))) := by
  intro fs
  induction fs with
  | nil =>
    intro fuel hf _
    cases fuel with
    | zero => simp [featTail] at hf
    | succ f => rfl
  | cons p rest ih =>
    intro fuel hf hb
    have hlen : (featTail zb (p :: rest)).length =
        1 + (featCore zb p).length + (featTail zb rest).length := by
      show (' ' :: (featCore zb p ++ featTail zb rest)).length = _
      simp
      omega
    cases fuel with
    | zero => rw [hlen] at hf; omega
    | succ f =>
      obtain ⟨hp0, hp1⟩ := hb p (by simp)
      set shift : ℤ := if zb then 0 else 1 with hshift
      have hm : (p.1 + shift).natAbs < 2 ^ 31 := by omega
      have hcast : ((p.1 + shift).natAbs : ℤ) = p.1 + shift := Int.natAbs_of_nonneg hp0
      have hcore : featCore zb p =
          renderNat (p.1 + shift).natAbs ++ ':' :: renderQ p.2 := by
        unfold featCore
        rw [← hshift, renderInt_nonneg hp0]
      have hshape : featTail zb (p :: rest) =
          ' ' :: (renderNat (p.1 + shift).natAbs ++
            (':' :: (renderQ p.2 ++ featTail zb rest))) := by
        show ' ' :: featCore zb p ++ featTail zb rest = _
        rw [hcore]
        simp
      have huint : parseUInt (featTail zb (p :: rest)) =
          some ((p.1 + shift).natAbs % 2 ^ 32,
            ':' :: (renderQ p.2 ++ featTail zb rest)) := by
        rw [hshape, parseUInt_cons_space,
          parseUInt_shape (renderNat_digits _) (renderNat_ne_nil _)
            (by intro c hc; injection hc with hc; subst hc; decide),
          natVal_renderNat]
      have hchar : readCharSkip (':' :: (renderQ p.2 ++ featTail zb rest)) =
          some (':', renderQ p.2 ++ featTail zb rest) :=
        readCharSkip_cons _ (by decide)
      have hdouble : parseDouble (renderQ p.2 ++ featTail zb rest) =
          some (reparseQ p.2, featTail zb rest) :=
        parseDouble_renderQ p.2 (featTail zb rest) (Or.inr (featTail_head zb rest))
      have hrec : featLoopF f (featTail zb rest) =
          .ok (rest.map (fun q => (q.1 + shift, reparseQ q.2))) := by
        refine ih f ?_ ?_
        · rw [hlen] at hf; omega
        · intro q hq; exact hb q (by simp [hq])
      have hts : toSigned ((p.1 + shift).natAbs % 2 ^ 32) = p.1 + shift := by
        rw [Nat.mod_eq_of_lt (by omega)]
        unfold toSigned
        rw [if_pos hm, hcast]
      simp only [featLoopF, huint, hchar, hdouble, if_pos rfl, hrec, hts, List.map_cons]
      simp

theorem featLoop_featTail (zb : Bool) (fs : List (ℤ × ℚ))
    (hb : ∀ p ∈ fs, 0 ≤ p.1 + (if zb then 0 else 1) ∧
      p.1 + (if zb then 0 else 1) < 2 ^ 31) :
    featLoop (featTail zb fs) =
      .ok (fs.map (fun p => (p.1 + (if zb then 0 else 1), reparseQ p.2))) :=
  featLoopF_featTail zb fs _ (by omega) hb


/-! Evaluation of parse_line on a line the writer produced. -/

theorem join_featToks (zb : Bool) (p : ℤ × ℚ) (rest : List (ℤ × ℚ)) :
    ((p :: rest).map (fun q => featCore zb q ++ [' '])).flatten =
      featCore zb p ++ featTail zb rest := by
  induction rest generalizing p with
  | nil =>
    rw [List.map_cons, List.map_nil, List.flatten_cons, List.flatten_nil]
    simp [featTail]
  | cons q rest ih =>
    rw [List.map_cons, List.flatten_cons, ih q]
    simp [featTail]

theorem renderQ_not_hash {q : ℚ} {c : Char} (hc : c ∈ renderQ q) : (c == '#') = false := by
  rcases renderQ_chars hc with h | h | h | h | h
  · exact beq_eq_false_iff_ne.mpr (isDigitB_ne h (by decide))
  · subst h; decide
  · subst h; decide
  · subst h; decide
  · subst h; decide

theorem renderQ_head_ne_hash (q : ℚ) : ¬ (renderQ q).head? = some '#' := by
  intro h
  have hmem : '#' ∈ renderQ q := by
    cases hrq : renderQ q with
    | nil => rw [hrq] at h; cases h
    | cons a t =>
      rw [hrq] at h
      injection h with h
      subst h
      simp
  have := renderQ_not_hash hmem
  simp at this

theorem featTail_chars {zb : Bool} {fs : List (ℤ × ℚ)} {c : Char}
    (hc : c ∈ featTail zb fs) : c = ' ' ∨ ∃ p ∈ fs, c ∈ featCore zb p := by
  induction fs with
  | nil =>
    simp only [featTail, List.mem_singleton] at hc
    exact Or.inl hc
  | cons p rest ih =>
    have hc2 : c = ' ' ∨ c ∈ featCore zb p ∨ c ∈ featTail zb rest := by
      have : c ∈ ' ' :: (featCore zb p ++ featTail zb rest) := by
        simpa [featTail] using hc
      simpa [List.mem_cons, List.mem_append] using this
    rcases hc2 with h | h | h
    · exact Or.inl h
    · exact Or.inr ⟨p, by simp, h⟩
    · rcases ih h with h2 | ⟨q, hq, hcq⟩
      · exact Or.inl h2
      · exact Or.inr ⟨q, by simp [hq], hcq⟩

theorem parseLineRec_dump (zb : Bool) (r : SvmRecord) (hne : r.features ≠ [])
    (hb : ∀ p ∈ r.features, 0 ≤ p.1 + (if zb then 0 else 1) ∧
      p.1 + (if zb then 0 else 1) < 2 ^ 31) :
    parseLineRec (dumpLineRec zb r) = .ok (some (reRecord zb r)) := by
  obtain ⟨p, rest, hfs⟩ : ∃ p rest, r.features = p :: rest := by
    cases hx : r.features with
    | nil => exact absurd hx hne
    | cons p rest => exact ⟨p, rest, rfl⟩
  have hpb := hb p (by rw [hfs]; simp)
  have hL : dumpLineRec zb r =
      (renderQ r.label ++ ' ' :: (featCore zb p ++ featTail zb rest)) ++
        ('#' :: ' ' :: (r.comment ++ [' '])) := by
    unfold dumpLineRec
    rw [hfs, join_featToks]
    simp
  have hPchars : ∀ c ∈ renderQ r.label ++ ' ' :: (featCore zb p ++ featTail zb rest),
      (c == '#') = false := by
    intro c hc
    simp only [List.mem_append, List.mem_cons] at hc
    rcases hc with hc | hc | hc | hc
    · exact renderQ_not_hash hc
    · subst hc; decide
    · exact featChar_not_hash (featCore_chars hc)
    · rcases featTail_chars hc with h | ⟨q, hq, hcq⟩
      · subst h; decide
      · exact featChar_not_hash (featCore_chars hcq)
  have hfind : ((renderQ r.label ++ ' ' :: (featCore zb p ++ featTail zb rest)) ++
      ('#' :: ' ' :: (r.comment ++ [' ']))).findIdx (fun c => c == '#') =
      (renderQ r.label ++ ' ' :: (featCore zb p ++ featTail zb rest)).length := by
    rw [findIdx_append_none _ hPchars]
    simp [List.findIdx_cons]
  have htake : ((renderQ r.label ++ ' ' :: (featCore zb p ++ featTail zb rest)) ++
      ('#' :: ' ' :: (r.comment ++ [' ']))).take
        (renderQ r.label ++ ' ' :: (featCore zb p ++ featTail zb rest)).length =
      renderQ r.label ++ ' ' :: (featCore zb p ++ featTail zb rest) :=
    List.take_left _ _
  have hdrop : ((renderQ r.label ++ ' ' :: (featCore zb p ++ featTail zb rest)) ++
      ('#' :: ' ' :: (r.comment ++ [' ']))).drop
        ((renderQ r.label ++ ' ' :: (featCore zb p ++ featTail zb rest)).length + 1) =
      ' ' :: (r.comment ++ [' ']) :=
    drop_append_cons _ _ _
  have hlabel : parseDouble (renderQ r.label ++ ' ' :: (featCore zb p ++ featTail zb rest)) =
      some (reparseQ r.label, ' ' :: (featCore zb p ++ featTail zb rest)) :=
    parseDouble_renderQ r.label _ (Or.inr rfl)
  have htok : parseToken (' ' :: (featCore zb p ++ featTail zb rest)) =
      some (featCore zb p, featTail zb rest) :=
    parseToken_shape (featCore_ne_nil zb p)
      (fun c hc => featChar_not_ws (featCore_chars hc)) (featTail_head zb rest)
  have hcore : featCore zb p =
      renderNat (p.1 + (if zb then 0 else 1)).natAbs ++ ':' :: renderQ p.2 := by
    unfold featCore
    rw [renderInt_nonneg hpb.1]
  have hqid : scanQid (featCore zb p) = false := by
    rw [hcore]
    cases hrn : renderNat (p.1 + (if zb then 0 else 1)).natAbs with
    | nil => exact absurd hrn (renderNat_ne_nil _)
    | cons d ds =>
      rw [List.cons_append]
      exact scanQid_digit_head (renderNat_digits _ d (by rw [hrn]; simp))
  have hscan : scanFeature (featCore zb p) =
      some ((p.1 + (if zb then 0 else 1)).natAbs % 2 ^ 32, ':', reparseQ p.2) := by
    rw [hcore, scanFeature_shape, natVal_renderNat]
  have hm : (p.1 + (if zb then 0 else 1)).natAbs < 2 ^ 31 := by
    obtain ⟨h1, h2⟩ := hpb
    omega
  have hts : toSigned ((p.1 + (if zb then 0 else 1)).natAbs % 2 ^ 32) =
      p.1 + (if zb then 0 else 1) := by
    rw [Nat.mod_eq_of_lt (by omega)]
    unfold toSigned
    rw [if_pos hm, Int.natAbs_of_nonneg hpb.1]
  have hloop : featLoop (featTail zb rest) =
      .ok (rest.map (fun q => (q.1 + (if zb then 0 else 1), reparseQ q.2))) :=
    featLoop_featTail zb rest (fun q hq => hb q (by rw [hfs]; simp [hq]))
  have hQne : renderQ r.label ≠ [] := renderQ_ne_nil r.label
  have hPne : renderQ r.label ++ ' ' :: (featCore zb p ++ featTail zb rest) ≠ [] := by
    simp
  have hhead : ¬ ((renderQ r.label ++ ' ' :: (featCore zb p ++ featTail zb rest)) ++
      ('#' :: ' ' :: (r.comment ++ [' ']))).head? = some '#' := by
    rw [head?_append_left hPne, head?_append_left hQne]
    exact renderQ_head_ne_hash r.label
  have hisE : (((renderQ r.label ++ ' ' :: (featCore zb p ++ featTail zb rest)) ++
      ('#' :: ' ' :: (r.comment ++ [' ']))).isEmpty) = false := by
    simp
  have hlt : (renderQ r.label ++ ' ' :: (featCore zb p ++ featTail zb rest)).length <
      ((renderQ r.label ++ ' ' :: (featCore zb p ++ featTail zb rest)) ++
        ('#' :: ' ' :: (r.comment ++ [' ']))).length := by
    simp
  rw [hL]
  simp only [parseLineRec, hisE, Bool.false_eq_true, if_false, if_neg hhead, hfind, htake,
    hlabel, htok, hqid, hscan, hts, hloop, if_pos hlt, hdrop]
  simp [reRecord, hfs]


/-! Correspondence between parse_file, record lists and mkDataset. -/

theorem parseLines_of_records :
    ∀ (ls : List (List Char)) (rs : List SvmRecord), recordsOf ls = some rs →
      ∀ st, parseLines ls st = .ok (rs.foldl pushRecord st) := by
  intro ls
  induction ls with
  | nil =>
    intro rs h st
    simp only [recordsOf, Option.some.injEq] at h
    subst h
    rfl
  | cons l rest ih =>
    intro rs h st
    cases hl : parseLineRec l with
    | error e =>
      simp only [recordsOf, hl] at h
      exact Option.noConfusion h
    | ok o =>
      cases o with
      | none =>
        simp only [recordsOf, hl] at h
        simp only [parseLines, parse_line, hl]
        exact ih rs h st
      | some r =>
        cases hrest : recordsOf rest with
        | none =>
          simp only [recordsOf, hl, hrest] at h
          exact Option.noConfusion h
        | some rs2 =>
          simp only [recordsOf, hl, hrest, Option.some.injEq] at h
          subst h
          simp only [parseLines, parse_line, hl, List.foldl_cons]
          exact ih rs2 hrest (pushRecord st r)

theorem records_of_parseLines :
    ∀ (ls : List (List Char)) (st st2 : ParseState), parseLines ls st = .ok st2 →
      ∃ rs, recordsOf ls = some rs ∧ st2 = rs.foldl pushRecord st := by
  intro ls
  induction ls with
  | nil =>
    intro st st2 h
    simp only [parseLines, Except.ok.injEq] at h
    exact ⟨[], rfl, h.symm⟩
  | cons l rest ih =>
    intro st st2 h
    simp only [parseLines, parse_line] at h
    cases hl : parseLineRec l with
    | error e => rw [hl] at h; cases h
    | ok o =>
      cases o with
      | none =>
        rw [hl] at h
        obtain ⟨rs, hr, hst⟩ := ih st st2 h
        exact ⟨rs, by simp only [recordsOf, hl]; exact hr, hst⟩
      | some r =>
        rw [hl] at h
        obtain ⟨rs2, hr2, hst⟩ := ih (pushRecord st r) st2 h
        refine ⟨r :: rs2, ?_, ?_⟩
        · simp only [recordsOf, hl, hr2]
        · simp only [List.foldl_cons, hst]

theorem foldl_push_data : ∀ (rs : List SvmRecord) (st : ParseState),
    (rs.foldl pushRecord st).data =
      st.data ++ (rs.map (fun r => r.features.map Prod.snd)).flatten := by
  intro rs
  induction rs with
  | nil => intro st; simp
  | cons r rest ih =>
    intro st
    rw [List.foldl_cons, ih]
    simp [pushRecord]

theorem foldl_push_indices : ∀ (rs : List SvmRecord) (st : ParseState),
    (rs.foldl pushRecord st).indices =
      st.indices ++ (rs.map (fun r => r.features.map Prod.fst)).flatten := by
  intro rs
  induction rs with
  | nil => intro st; simp
  | cons r rest ih =>
    intro st
    rw [List.foldl_cons, ih]
    simp [pushRecord]

theorem foldl_push_labels : ∀ (rs : List SvmRecord) (st : ParseState),
    (rs.foldl pushRecord st).labels = st.labels ++ rs.map (fun r => r.label) := by
  intro rs
  induction rs with
  | nil => intro st; simp
  | cons r rest ih =>
    intro st
    rw [List.foldl_cons, ih]
    simp [pushRecord]

theorem foldl_push_comments : ∀ (rs : List SvmRecord) (st : ParseState),
    (rs.foldl pushRecord st).comments = st.comments ++ rs.map (fun r => r.comment) := by
  intro rs
  induction rs with
  | nil => intro st; simp
  | cons r rest ih =>
    intro st
    rw [List.foldl_cons, ih]
    simp [pushRecord]

theorem scanl_ne_nil (b : ℕ) (cs : List ℕ) :
    List.scanl (fun a c => a + c) b cs ≠ [] := by
  cases cs <;> simp [List.scanl_nil, List.scanl_cons]

theorem foldl_push_indptr : ∀ (rs : List SvmRecord) (st : ParseState),
    (rs.foldl pushRecord st).indptr =
      st.indptr ++ (List.scanl (fun a c => a + c) st.data.length
        (rs.map (fun r => r.features.length))).dropLast := by
  intro rs
  induction rs with
  | nil => intro st; simp [List.scanl_nil]
  | cons r rest ih =>
    intro st
    rw [List.foldl_cons, ih]
    simp only [List.map_cons, List.scanl_cons, List.singleton_append]
    rw [List.dropLast_cons_of_ne_nil (scanl_ne_nil _ _)]
    simp [pushRecord]

theorem scanl_dropLast_concat : ∀ (cs : List ℕ) (b : ℕ),
    (List.scanl (fun a c => a + c) b cs).dropLast ++ [b + cs.sum] =
      List.scanl (fun a c => a + c) b cs := by
  intro cs
  induction cs with
  | nil => intro b; simp [List.scanl_nil]
  | cons c cs ih =>
    intro b
    rw [List.scanl_cons]
    simp only [List.singleton_append]
    rw [List.dropLast_cons_of_ne_nil (scanl_ne_nil _ _), List.cons_append]
    rw [show b + (c :: cs).sum = (b + c) + cs.sum by simp; omega]
    rw [ih (b + c)]

theorem parse_file_of_records (ls : List (List Char)) (rs : List SvmRecord)
    (h : recordsOf ls = some rs) : parse_file ls = .ok (mkDataset rs) := by
  have hstep : parse_file ls = .ok { rs.foldl pushRecord emptyState with
      indptr := (rs.foldl pushRecord emptyState).indptr ++
        [(rs.foldl pushRecord emptyState).data.length] } := by
    unfold parse_file
    rw [parseLines_of_records ls rs h emptyState]
  rw [hstep]
  refine congrArg Except.ok ?_
  have hsum : (rs.foldl pushRecord emptyState).data.length =
      (rs.map (fun r => r.features.length)).sum := by
    rw [foldl_push_data]
    simp only [emptyState, List.nil_append, List.length_flatten, List.map_map]
    rw [show (List.length ∘ fun (r : SvmRecord) => List.map Prod.snd r.features) =
      (fun r => r.features.length) from funext (fun r => by simp)]
  refine ParseState.ext ?_ ?_ ?_ ?_ ?_
  · rw [foldl_push_data]
    simp [mkDataset, emptyState]
  · rw [foldl_push_indices]
    simp [mkDataset, emptyState]
  · show (rs.foldl pushRecord emptyState).indptr ++
        [(rs.foldl pushRecord emptyState).data.length] = _
    rw [foldl_push_indptr, hsum]
    simp only [emptyState, List.nil_append, List.length_nil]
    have hconc := scanl_dropLast_concat (rs.map (fun r => r.features.length)) 0
    rw [Nat.zero_add] at hconc
    rw [hconc]
    simp [mkDataset]
  · rw [foldl_push_labels]
    simp [mkDataset, emptyState]
  · rw [foldl_push_comments]
    simp [mkDataset, emptyState]


/-! The writer on a dataset assembled from records. -/

theorem scanl_getD : ∀ (cs : List ℕ) (i b : ℕ), i ≤ cs.length →
    (List.scanl (fun a c => a + c) b cs).getD i 0 = b + (cs.take i).sum := by
  intro cs
  induction cs with
  | nil =>
    intro i b h
    simp only [List.length_nil, Nat.le_zero] at h
    subst h
    simp [List.scanl_nil]
  | cons c cs ih =>
    intro i b h
    cases i with
    | zero => simp [List.scanl_cons]
    | succ j =>
      rw [List.scanl_cons]
      simp only [List.singleton_append, List.getD_cons_succ]
      rw [ih j (b + c) (by simpa using h)]
      simp [List.take_succ_cons]
      omega

theorem flatten_getD {α : Type} (d : α) :
    ∀ (L : List (List α)) (i j : ℕ), i < L.length →
      j < (L.getD i []).length →
      L.flatten.getD (((L.map List.length).take i).sum + j) d = (L.getD i []).getD j d := by
  intro L
  induction L with
  | nil => intro i j hi _; simp at hi
  | cons l0 rest ih =>
    intro i j hi hj
    cases i with
    | zero =>
      simp only [List.getD_cons_zero] at hj ⊢
      simp only [List.take_zero, List.sum_nil, Nat.zero_add, List.flatten_cons]
      exact List.getD_append _ _ _ _ hj
    | succ i2 =>
      simp only [List.getD_cons_succ] at hj ⊢
      simp only [List.map_cons, List.take_succ_cons, List.sum_cons, List.flatten_cons]
      rw [Nat.add_assoc, List.getD_append_right _ _ _ _ (by omega)]
      rw [show l0.length + (((rest.map List.length).take i2).sum + j) - l0.length =
        ((rest.map List.length).take i2).sum + j by omega]
      exact ih i2 j (by simpa using hi) hj

theorem range'_map_congr {β : Type} (d : β) :
    ∀ (n s : ℕ) (F : ℕ → β) (l : List β), l.length = n →
      (∀ j, j < n → F (s + j) = l.getD j d) → (List.range' s n).map F = l := by
  intro n
  induction n with
  | zero =>
    intro s F l hl _
    rw [List.length_eq_zero.mp hl]
    rfl
  | succ m ih =>
    intro s F l hl hF
    cases l with
    | nil => simp at hl
    | cons x xs =>
      rw [List.range'_succ, List.map_cons]
      congr 1
      · have := hF 0 (by omega)
        simpa using this
      · refine ih (s + 1) F xs (by simpa using hl) ?_
        intro j hj
        have := hF (j + 1) (by omega)
        rw [List.getD_cons_succ] at this
        rw [← this]
        congr 1
        omega

theorem mk_counts (rs : List SvmRecord) :
    ((rs.map (fun r => r.features.map Prod.snd)).map List.length) =
      rs.map (fun r => r.features.length) := by
  rw [List.map_map]
  refine List.map_congr_left ?_
  intro r _
  simp

theorem mk_counts_fst (rs : List SvmRecord) :
    ((rs.map (fun r => r.features.map Prod.fst)).map List.length) =
      rs.map (fun r => r.features.length) := by
  rw [List.map_map]
  refine List.map_congr_left ?_
  intro r _
  simp

theorem dumpLineAt_mk (zb : Bool) (rs : List SvmRecord) (i : ℕ) (hi : i < rs.length) :
    dumpLineAt (mkDataset rs) zb i = dumpLineRec zb (rs.get ⟨i, hi⟩) := by
  have hcnt : (rs.map (fun r => r.features.length)).length = rs.length := by simp
  have hlab : (mkDataset rs).labels.getD i 0 = (rs.get ⟨i, hi⟩).label := by
    show (rs.map (fun r => r.label)).getD i 0 = _
    rw [List.getD_eq_getElem _ _ (by simpa using hi), List.getElem_map]
    simp
  have hcom : (mkDataset rs).comments.getD i [] = (rs.get ⟨i, hi⟩).comment := by
    show (rs.map (fun r => r.comment)).getD i [] = _
    rw [List.getD_eq_getElem _ _ (by simpa using hi), List.getElem_map]
    simp
  have hptr_i : (mkDataset rs).indptr.getD i 0 =
      ((rs.map (fun r => r.features.length)).take i).sum := by
    show (List.scanl _ 0 _).getD i 0 = _
    rw [scanl_getD _ i 0 (by omega)]
    omega
  have hptr_si : (mkDataset rs).indptr.getD (i + 1) 0 =
      ((rs.map (fun r => r.features.length)).take (i + 1)).sum := by
    show (List.scanl _ 0 _).getD (i + 1) 0 = _
    rw [scanl_getD _ (i + 1) 0 (by omega)]
    omega
  have hcnt_i : (rs.map (fun r => r.features.length))[i] = (rs.get ⟨i, hi⟩).features.length := by
    rw [List.getElem_map]
    simp
  have hdiff : (mkDataset rs).indptr.getD (i + 1) 0 - (mkDataset rs).indptr.getD i 0 =
      (rs.get ⟨i, hi⟩).features.length := by
    rw [hptr_i, hptr_si, List.sum_take_succ _ i (by simpa using hi), hcnt_i]
    omega
  have hslice : (List.range' ((rs.map (fun r => r.features.length)).take i).sum
      (rs.get ⟨i, hi⟩).features.length).map
        (fun jj => renderInt ((mkDataset rs).indices.getD jj 0 +
            if zb then 0 else 1) ++
          ':' :: renderQ ((mkDataset rs).data.getD jj 0) ++ [' ']) =
      (rs.get ⟨i, hi⟩).features.map (fun p => featCore zb p ++ [' ']) := by
    refine range'_map_congr [] _ _ _ _ (by rw [List.length_map]) ?_
    intro j hj
    have hgetD1 : (rs.map (fun r => r.features.map Prod.fst)).getD i [] =
        (rs.get ⟨i, hi⟩).features.map Prod.fst := by
      have hb2 : i < (rs.map (fun r => r.features.map Prod.fst)).length := by
        simpa using hi
      rw [List.getD_eq_getElem _ _ hb2, List.getElem_map]
      simp
    have hgetD2 : (rs.map (fun r => r.features.map Prod.snd)).getD i [] =
        (rs.get ⟨i, hi⟩).features.map Prod.snd := by
      have hb2 : i < (rs.map (fun r => r.features.map Prod.snd)).length := by
        simpa using hi
      rw [List.getD_eq_getElem _ _ hb2, List.getElem_map]
      simp
    have hidx : (mkDataset rs).indices.getD
        (((rs.map (fun r => r.features.length)).take i).sum + j) 0 =
        ((rs.get ⟨i, hi⟩).features.getD j (0, 0)).1 := by
      show ((rs.map (fun r => r.features.map Prod.fst)).flatten).getD _ 0 = _
      rw [← mk_counts_fst rs]
      rw [flatten_getD 0 _ i j (by simpa using hi) (by rw [hgetD1]; simpa using hj)]
      rw [hgetD1]
      have hb3 : j < ((rs.get ⟨i, hi⟩).features.map Prod.fst).length := by simpa using hj
      rw [List.getD_eq_getElem _ _ hb3, List.getElem_map, List.getD_eq_getElem _ _ hj]
    have hdat : (mkDataset rs).data.getD
        (((rs.map (fun r => r.features.length)).take i).sum + j) 0 =
        ((rs.get ⟨i, hi⟩).features.getD j (0, 0)).2 := by
      show ((rs.map (fun r => r.features.map Prod.snd)).flatten).getD _ 0 = _
      rw [← mk_counts rs]
      rw [flatten_getD 0 _ i j (by simpa using hi) (by rw [hgetD2]; simpa using hj)]
      rw [hgetD2]
      have hb3 : j < ((rs.get ⟨i, hi⟩).features.map Prod.snd).length := by simpa using hj
      rw [List.getD_eq_getElem _ _ hb3, List.getElem_map, List.getD_eq_getElem _ _ hj]
    rw [hidx, hdat]
    have hb5 : j < ((rs.get ⟨i, hi⟩).features.map
        (fun p => featCore zb p ++ [' '])).length := by
      simpa using hj
    rw [List.getD_eq_getElem _ _ hb5, List.getElem_map, List.getD_eq_getElem _ _ hj]
    simp [featCore]
  unfold dumpLineAt dumpLineRec
  rw [hlab, hcom, hdiff, hptr_i, hslice]

theorem dump_mk (zb : Bool) (rs : List SvmRecord) :
    dump_svmlight_file (mkDataset rs) zb = rs.map (dumpLineRec zb) := by
  unfold dump_svmlight_file
  have hlen : (mkDataset rs).indptr.length - 1 = rs.length := by
    show (List.scanl _ 0 _).length - 1 = _
    rw [List.length_scanl]
    simp
  rw [hlen]
  refine List.ext_get (by simp) ?_
  intro n h1 h2
  simp only [List.get_eq_getElem, List.getElem_map, List.getElem_range]
  exact dumpLineAt_mk zb rs n (by simpa using h2)


/-! Round-trip lemmas shared by the claims. -/

theorem recordsOf_dump (zb : Bool) :
    ∀ (rs : List SvmRecord), (∀ r ∈ rs, r.features ≠ []) →
      (∀ r ∈ rs, ∀ p ∈ r.features, 0 ≤ p.1 + (if zb then 0 else 1) ∧
        p.1 + (if zb then 0 else 1) < 2 ^ 31) →
      recordsOf (rs.map (dumpLineRec zb)) = some (rs.map (reRecord zb)) := by
  intro rs
  induction rs with
  | nil => intro _ _; rfl
  | cons r rest ih =>
    intro h1 h2
    have hline := parseLineRec_dump zb r (h1 r (by simp)) (h2 r (by simp))
    have hrest := ih (fun q hq => h1 q (by simp [hq])) (fun q hq => h2 q (by simp [hq]))
    simp only [List.map_cons, recordsOf, hline, hrest]

theorem parse_file_dump (zb : Bool) (rs : List SvmRecord)
    (h1 : ∀ r ∈ rs, r.features ≠ [])
    (h2 : ∀ r ∈ rs, ∀ p ∈ r.features, 0 ≤ p.1 + (if zb then 0 else 1) ∧
      p.1 + (if zb then 0 else 1) < 2 ^ 31) :
    parse_file (dump_svmlight_file (mkDataset rs) zb) =
      .ok (mkDataset (rs.map (reRecord zb))) := by
  rw [dump_mk]
  exact parse_file_of_records _ _ (recordsOf_dump zb rs h1 h2)

theorem load_of_parse_true (ls : List (List Char)) (st : ParseState)
    (h : parse_file ls = .ok st) : load_svmlight ls true = .ok st := by
  unfold load_svmlight
  rw [h]
  rfl

theorem load_of_parse_false (ls : List (List Char)) (st : ParseState)
    (h : parse_file ls = .ok st) :
    load_svmlight ls false =
      .ok { st with indices := st.indices.map (fun i => i - 1) } := by
  unfold load_svmlight
  rw [h]
  rfl

theorem mk_reRecord_indices (zb : Bool) (rs : List SvmRecord) :
    (mkDataset (rs.map (reRecord zb))).indices =
      (mkDataset rs).indices.map (fun i => i + (if zb then 0 else 1)) := by
  simp only [mkDataset, List.map_map]
  rw [List.map_flatten, List.map_map]
  congr 1
  refine List.map_congr_left ?_
  intro r _
  simp [Function.comp, reRecord, List.map_map]

theorem mk_reRecord_data (zb : Bool) (rs : List SvmRecord) :
    (mkDataset (rs.map (reRecord zb))).data = (mkDataset rs).data.map reparseQ := by
  simp only [mkDataset, List.map_map]
  rw [List.map_flatten, List.map_map]
  congr 1
  refine List.map_congr_left ?_
  intro r _
  simp [Function.comp, reRecord, List.map_map]

theorem mk_reRecord_labels (zb : Bool) (rs : List SvmRecord) :
    (mkDataset (rs.map (reRecord zb))).labels = (mkDataset rs).labels.map reparseQ := by
  simp only [mkDataset, List.map_map]
  refine List.map_congr_left ?_
  intro r _
  simp [Function.comp, reRecord]

theorem mk_reRecord_indptr (zb : Bool) (rs : List SvmRecord) :
    (mkDataset (rs.map (reRecord zb))).indptr = (mkDataset rs).indptr := by
  simp only [mkDataset, List.map_map]
  congr 1
  refine List.map_congr_left ?_
  intro r _
  simp [Function.comp, reRecord]


/-! Support for the indptr invariant and error propagation claims. -/

theorem scanl_head (b : ℕ) (cs : List ℕ) :
    (List.scanl (fun a c => a + c) b cs).head? = some b := by
  cases cs <;> simp [List.scanl_nil, List.scanl_cons]

theorem scanl_chain (cs : List ℕ) :
    ∀ b, List.Chain' (fun a c => a ≤ c) (List.scanl (fun a c => a + c) b cs) := by
  induction cs with
  | nil => intro b; simp [List.scanl_nil]
  | cons c cs ih =>
    intro b
    rw [List.scanl_cons]
    simp only [List.singleton_append]
    rw [List.chain'_cons']
    constructor
    · intro y hy
      rw [scanl_head] at hy
      injection hy with hy
      subst hy
      omega
    · exact ih (b + c)

theorem scanl_getLast? (b : ℕ) (cs : List ℕ) :
    (List.scanl (fun a c => a + c) b cs).getLast? = some (b + cs.sum) := by
  conv_lhs => rw [← scanl_dropLast_concat cs b]
  exact List.getLast?_concat _

theorem mkDataset_data_length (rs : List SvmRecord) :
    (mkDataset rs).data.length = (rs.map (fun r => r.features.length)).sum := by
  show (rs.map (fun r => r.features.map Prod.snd)).flatten.length = _
  rw [List.length_flatten, mk_counts]

theorem mkDataset_indices_length (rs : List SvmRecord) :
    (mkDataset rs).indices.length = (rs.map (fun r => r.features.length)).sum := by
  show (rs.map (fun r => r.features.map Prod.fst)).flatten.length = _
  rw [List.length_flatten, mk_counts_fst]

theorem parse_file_mkDataset (ls : List (List Char)) (st : ParseState)
    (h : parse_file ls = .ok st) :
    ∃ rs, recordsOf ls = some rs ∧ st = mkDataset rs := by
  unfold parse_file at h
  cases hpl : parseLines ls emptyState with
  | error e => rw [hpl] at h; cases h
  | ok st0 =>
    rw [hpl] at h
    injection h with h
    obtain ⟨rs, hr, _⟩ := records_of_parseLines ls emptyState st0 hpl
    refine ⟨rs, hr, ?_⟩
    have h2 := parse_file_of_records ls rs hr
    unfold parse_file at h2
    rw [hpl] at h2
    injection h2 with h2
    rw [← h, ← h2]

theorem parseLines_append (a b : List (List Char)) (st : ParseState) :
    parseLines (a ++ b) st = match parseLines a st with
      | .error e => .error e
      | .ok st2 => parseLines b st2 := by
  induction a generalizing st with
  | nil => rfl
  | cons l rest ih =>
    simp only [List.cons_append, parseLines]
    cases parse_line l st with
    | error e => rfl
    | ok st2 => exact ih st2


/-! Claim theorems. -/

/-- C1: the claim states that the line with the wrong separator, label 1.0
followed by the single token 5-0.2, raises a SyntaxError.  The code instead
accepts the line: the %u%c%lf conversion succeeds on 5-0.2 and the separator
character read into c is never compared with the colon in the second-token
branch (cpp lines 255-259; only the while loop at lines 265-267 checks), so
the pair (5, 0.2) is stored.  This theorem evaluates the embedded parse_line
at the failing input. -/
theorem claim_C1_wrong_separator_accepted :
    parse_line c1line emptyState = .ok (ParseState.mk [1 / 5] [5] [0] [1] [[]]) := by
  with_unfolding_all decide

/-- C4: a line holding a valid float label and no further token is rejected
with the missing-qid SyntaxError, for every accumulator state; it is never
accepted as a record with an empty feature sequence. -/
theorem claim_C4_label_only_rejected (line : List Char) (st : ParseState) (y : ℚ)
    (r : List Char) (h0 : line ≠ []) (h1 : ¬ line.head? = some '#')
    (h2 : parseDouble (line.take (line.findIdx (fun c => c == '#'))) = some (y, r))
    (h3 : parseToken r = none) :
    parse_line line st = .error "Missing qid label" := by
  simp only [parse_line, parseLineRec, List.isEmpty_eq_false.mpr h0, Bool.false_eq_true,
    if_false, if_neg h1, h2, h3]

/-- Witness for C4: the label-only line 1.0 is rejected. -/
theorem claim_C4_witness :
    parse_line c4line emptyState = .error "Missing qid label" :=
  claim_C4_label_only_rejected c4line emptyState 1 []
    (by with_unfolding_all decide) (by with_unfolding_all decide)
    (by with_unfolding_all decide) (by with_unfolding_all decide)

/-- C6: the line 1.0 qid:3 5:0.2 7:1.5 parses to exactly one record with
label 1.0 and features (5, 0.2) then (7, 1.5) in that order; the qid:3 token
is consumed and discarded and contributes no feature pair. -/
theorem claim_C6_qid_line :
    parse_line c6line emptyState =
      .ok (ParseState.mk [1 / 5, 3 / 2] [5, 7] [0] [1] [[]]) := by
  with_unfolding_all decide

/-- C7: a line whose first character is the hash parses successfully, emits
no record and leaves every accumulated sequence unchanged. -/
theorem claim_C7_comment_line (line : List Char) (st : ParseState)
    (h : line.head? = some '#') : parse_line line st = .ok st := by
  cases line with
  | nil => cases h
  | cons c rest =>
    injection h with h
    subst h
    rfl

/-- Witness for C7: a comment line on a nonempty accumulator state. -/
theorem claim_C7_witness :
    parse_line c7line (ParseState.mk [5] [2] [0] [7] [[]]) =
      .ok (ParseState.mk [5] [2] [0] [7] [[]]) :=
  claim_C7_comment_line c7line (ParseState.mk [5] [2] [0] [7] [[]]) (by decide)

/-- C9: an empty source yields the dataset with zero records: labels empty,
indptr the singleton zero, data and indices empty. -/
theorem claim_C9_empty_source :
    parse_file [] = .ok (ParseState.mk [] [] [0] [] []) := by
  with_unfolding_all decide

/-- C8 counterexample: a source containing an empty line whose earlier line
is malformed fails with the SyntaxError of the earlier line, not with the
message empty line, refuting the claim as stated. -/
theorem claim_C8_counterexample :
    ([] : List Char) ∈ [c8badline, ([] : List Char)] ∧
    parse_file [c8badline, []] = .error "Missing qid label" ∧
    "Missing qid label" ≠ "empty line" := by
  with_unfolding_all decide

/-- C8 (amended): a source containing an empty line always fails (every
failure of the embedded parser is a SyntaxError and nothing after the error
is returned, so no partial dataset escapes); when every line before the
empty line parses cleanly the message is the empty-line SyntaxError itself,
propagated unchanged through parse_file. -/
theorem claim_C8_empty_line_aborts (ls1 ls2 : List (List Char)) :
    (∃ m, parse_file (ls1 ++ [] :: ls2) = .error m) ∧
    (∀ st, parseLines ls1 emptyState = .ok st →
      parse_file (ls1 ++ [] :: ls2) = .error "empty line") := by
  constructor
  · unfold parse_file
    rw [parseLines_append]
    cases hpl : parseLines ls1 emptyState with
    | error e => exact ⟨e, rfl⟩
    | ok st => exact ⟨"empty line", rfl⟩
  · intro st hst
    unfold parse_file
    rw [parseLines_append, hst]
    rfl

/-- Witness for C8: a well-formed line followed by an empty line. -/
theorem claim_C8_witness :
    parse_file ([c8okline] ++ [] :: []) = .error "empty line" :=
  (claim_C8_empty_line_aborts [c8okline] []).2
    (ParseState.mk [2] [1] [0] [1] [[]]) (by with_unfolding_all decide)

/-- C5: for every successful build, indptr is monotonically non-decreasing,
starts at zero, ends at the common length of data and indices, has one entry
more than there are records, and consecutive differences give each record's
feature count. -/
theorem claim_C5_csr_invariants (ls : List (List Char)) (st : ParseState)
    (h : parse_file ls = .ok st) :
    List.Chain' (fun a b => a ≤ b) st.indptr ∧
    st.indptr.head? = some 0 ∧
    st.indptr.getLast? = some st.data.length ∧
    st.data.length = st.indices.length ∧
    ∃ rs, recordsOf ls = some rs ∧ st.indptr.length = rs.length + 1 ∧
      ∀ i, i < rs.length →
        st.indptr.getD (i + 1) 0 - st.indptr.getD i 0 =
          (rs.map (fun r => r.features.length)).getD i 0 := by
  obtain ⟨rs, hrs, hst⟩ := parse_file_mkDataset ls st h
  subst hst
  refine ⟨scanl_chain _ 0, scanl_head 0 _, ?_, ?_, rs, hrs, ?_, ?_⟩
  · show (List.scanl _ 0 _).getLast? = _
    rw [scanl_getLast? 0 _, mkDataset_data_length]
    simp
  · rw [mkDataset_data_length, mkDataset_indices_length]
  · show (List.scanl _ 0 _).length = _
    rw [List.length_scanl]
    simp
  · intro i hi
    show (List.scanl _ 0 _).getD (i + 1) 0 - (List.scanl _ 0 _).getD i 0 = _
    rw [scanl_getD _ (i + 1) 0 (by simp; omega), scanl_getD _ i 0 (by simp; omega)]
    rw [List.sum_take_succ _ i (by simpa using hi)]
    rw [List.getD_eq_getElem _ _ (by simpa using hi)]
    omega

/-- Witness for C5 at the two-line scenario source of the spec. -/
theorem claim_C5_witness :
    List.Chain' (fun a b => a ≤ b) ([0, 1, 2] : List ℕ) ∧
    ([0, 1, 2] : List ℕ).head? = some 0 ∧
    ([0, 1, 2] : List ℕ).getLast? = some ([(4 : ℚ), 1].length) ∧
    ([(4 : ℚ), 1] : List ℚ).length = ([3, 2] : List ℤ).length ∧
    ∃ rs, recordsOf scenarioLines = some rs ∧
      ([0, 1, 2] : List ℕ).length = rs.length + 1 ∧
      ∀ i, i < rs.length →
        ([0, 1, 2] : List ℕ).getD (i + 1) 0 - ([0, 1, 2] : List ℕ).getD i 0 =
          (rs.map (fun r => r.features.length)).getD i 0 :=
  claim_C5_csr_invariants scenarioLines
    (ParseState.mk [4, 1] [3, 2] [0, 1, 2] [-1, 1] [[], []])
    (by with_unfolding_all decide)


/-- C2 counterexample: the dataset with one record and zero features has no
comments and (vacuously) only canonical indices, yet writing it with
zero_based false and loading the written text does not reproduce it: the
written line has a label and no second token before the comment marker, so
the loader raises the missing-qid SyntaxError and no dataset is produced. -/
theorem claim_C2_counterexample :
    (∀ c ∈ (mkDataset [⟨1, [], ([] : List Char)⟩]).comments, c = []) ∧
    load_svmlight (dump_svmlight_file (mkDataset [⟨1, [], []⟩]) false) false =
      .error "Missing qid label" := by
  with_unfolding_all decide

/-- C2 (amended): for every dataset assembled from records with no comments,
in which every record has at least one feature, whose indices lie in
\[0, 2^31 - 1), and whose labels and values survive the stream's default
six-significant-digit rendering (reparseQ v = v), writing with zero_based
false and then loading yields equal data, indices, indptr and labels. -/
theorem claim_C2_roundtrip (rs : List SvmRecord)
    (h1 : ∀ r ∈ rs, r.features ≠ [])
    (h2 : ∀ r ∈ rs, ∀ p ∈ r.features, 0 ≤ p.1 ∧ p.1 + 1 < 2 ^ 31)
    (_h3 : ∀ r ∈ rs, r.comment = [])
    (h4 : ∀ r ∈ rs, reparseQ r.label = r.label ∧ ∀ p ∈ r.features, reparseQ p.2 = p.2) :
    (load_svmlight (dump_svmlight_file (mkDataset rs) false) false).map
        (fun st => (st.data, st.indices, st.indptr, st.labels)) =
      .ok ((mkDataset rs).data, (mkDataset rs).indices, (mkDataset rs).indptr,
        (mkDataset rs).labels) := by
  have h2s : ∀ r ∈ rs, ∀ p ∈ r.features,
      0 ≤ p.1 + (if (false : Bool) then 0 else 1) ∧
      p.1 + (if (false : Bool) then 0 else 1) < 2 ^ 31 := by
    intro r hr p hp
    obtain ⟨ha, hb⟩ := h2 r hr p hp
    constructor <;> simp <;> omega
  have hpf := parse_file_dump false rs h1 h2s
  rw [load_of_parse_false _ _ hpf]
  have hdata : (mkDataset (rs.map (reRecord false))).data = (mkDataset rs).data := by
    rw [mk_reRecord_data]
    refine Eq.trans (List.map_congr_left ?_) (List.map_id _)
    intro v hv
    simp only [mkDataset] at hv
    rw [List.mem_flatten] at hv
    obtain ⟨l, hl, hvl⟩ := hv
    rw [List.mem_map] at hl
    obtain ⟨r, hr, rfl⟩ := hl
    rw [List.mem_map] at hvl
    obtain ⟨p, hp, rfl⟩ := hvl
    exact (h4 r hr).2 p hp
  have hlabs : (mkDataset (rs.map (reRecord false))).labels = (mkDataset rs).labels := by
    rw [mk_reRecord_labels]
    refine Eq.trans (List.map_congr_left ?_) (List.map_id _)
    intro v hv
    simp only [mkDataset] at hv
    rw [List.mem_map] at hv
    obtain ⟨r, hr, rfl⟩ := hv
    exact (h4 r hr).1
  have hidx : (mkDataset (rs.map (reRecord false))).indices.map (fun i => i - 1) =
      (mkDataset rs).indices := by
    rw [mk_reRecord_indices, List.map_map]
    refine Eq.trans (List.map_congr_left ?_) (List.map_id _)
    intro a _
    simp
  simp only [Except.map]
  rw [hdata, hidx, mk_reRecord_indptr, hlabs]

/-- Witness for C2 on a one-record dataset with one feature. -/
theorem claim_C2_witness :
    (load_svmlight (dump_svmlight_file
        (mkDataset [⟨1, [(0, 1 / 2)], ([] : List Char)⟩]) false) false).map
        (fun st => (st.data, st.indices, st.indptr, st.labels)) =
      .ok ((mkDataset [⟨1, [(0, 1 / 2)], ([] : List Char)⟩]).data,
        (mkDataset [⟨1, [(0, 1 / 2)], ([] : List Char)⟩]).indices,
        (mkDataset [⟨1, [(0, 1 / 2)], ([] : List Char)⟩]).indptr,
        (mkDataset [⟨1, [(0, 1 / 2)], ([] : List Char)⟩]).labels) :=
  claim_C2_roundtrip [⟨1, [(0, 1 / 2)], []⟩]
    (by with_unfolding_all decide) (by with_unfolding_all decide)
    (by with_unfolding_all decide) (by with_unfolding_all decide)

/-- C3 counterexample: the dataset with one record and zero features cannot
be read back at all after writing with zero_based true, so reading does not
reproduce its indices, refuting the universal claim. -/
theorem claim_C3_counterexample :
    load_svmlight (dump_svmlight_file (mkDataset [⟨2, [], ([] : List Char)⟩]) true) true =
      .error "Missing qid label" := by
  with_unfolding_all decide

/-- C3 (amended): for every dataset assembled from records in which every
record has at least one feature and indices lie in \[0, 2^31 - 1): writing
with zero_based true and reading with the same convention reproduces the
in-memory indices unchanged; writing with zero_based false and reading under
the one-based convention also reproduces them, and the raw on-disk indices
(read without the shift) are the in-memory ones shifted up by one, so the
convention read is shifted down by one relative to the on-disk text. -/
theorem claim_C3_zero_based_shift (rs : List SvmRecord)
    (h1 : ∀ r ∈ rs, r.features ≠ [])
    (h2 : ∀ r ∈ rs, ∀ p ∈ r.features, 0 ≤ p.1 ∧ p.1 + 1 < 2 ^ 31) :
    (load_svmlight (dump_svmlight_file (mkDataset rs) true) true).map
        ParseState.indices = .ok (mkDataset rs).indices ∧
    (load_svmlight (dump_svmlight_file (mkDataset rs) false) false).map
        ParseState.indices = .ok (mkDataset rs).indices ∧
    (parse_file (dump_svmlight_file (mkDataset rs) false)).map
        ParseState.indices = .ok ((mkDataset rs).indices.map (fun i => i + 1)) := by
  have h2t : ∀ r ∈ rs, ∀ p ∈ r.features,
      0 ≤ p.1 + (if (true : Bool) then 0 else 1) ∧
      p.1 + (if (true : Bool) then 0 else 1) < 2 ^ 31 := by
    intro r hr p hp
    obtain ⟨ha, hb⟩ := h2 r hr p hp
    constructor <;> simp <;> omega
  have h2f : ∀ r ∈ rs, ∀ p ∈ r.features,
      0 ≤ p.1 + (if (false : Bool) then 0 else 1) ∧
      p.1 + (if (false : Bool) then 0 else 1) < 2 ^ 31 := by
    intro r hr p hp
    obtain ⟨ha, hb⟩ := h2 r hr p hp
    constructor <;> simp <;> omega
  have hpft := parse_file_dump true rs h1 h2t
  have hpff := parse_file_dump false rs h1 h2f
  refine ⟨?_, ?_, ?_⟩
  · rw [load_of_parse_true _ _ hpft]
    simp only [Except.map]
    rw [mk_reRecord_indices]
    refine congrArg Except.ok ?_
    refine Eq.trans (List.map_congr_left ?_) (List.map_id _)
    intro a _
    simp
  · rw [load_of_parse_false _ _ hpff]
    simp only [Except.map]
    rw [mk_reRecord_indices, List.map_map]
    refine congrArg Except.ok ?_
    refine Eq.trans (List.map_congr_left ?_) (List.map_id _)
    intro a _
    simp
  · rw [hpff]
    simp only [Except.map]
    rw [mk_reRecord_indices]
    refine congrArg Except.ok (List.map_congr_left ?_)
    intro a _
    simp

/-- Witness for C3 on a one-record dataset with one integer feature. -/
theorem claim_C3_witness :
    (load_svmlight (dump_svmlight_file (mkDataset [⟨1, [(2, 3)], ([] : List Char)⟩]) true)
        true).map ParseState.indices =
      .ok (mkDataset [⟨1, [(2, 3)], ([] : List Char)⟩]).indices ∧
    (load_svmlight (dump_svmlight_file (mkDataset [⟨1, [(2, 3)], ([] : List Char)⟩]) false)
        false).map ParseState.indices =
      .ok (mkDataset [⟨1, [(2, 3)], ([] : List Char)⟩]).indices ∧
    (parse_file (dump_svmlight_file (mkDataset [⟨1, [(2, 3)], ([] : List Char)⟩]) false)).map
        ParseState.indices =
      .ok ((mkDataset [⟨1, [(2, 3)], ([] : List Char)⟩]).indices.map (fun i => i + 1)) :=
  claim_C3_zero_based_shift [⟨1, [(2, 3)], []⟩]
    (by with_unfolding_all decide) (by with_unfolding_all decide)

/-- C10: for every record of a dataset, the emitted line is the label
followed by one space, then each feature token index colon value followed by
one space, then unconditionally the hash marker, a space, the record comment
and a trailing space; the marker is present even when the comment is the
empty string. -/
theorem claim_C10_writer_format (zb : Bool) (rs : List SvmRecord) (i : ℕ)
    (hi : i < rs.length) :
    (dump_svmlight_file (mkDataset rs) zb).getD i [] =
      renderQ (rs.get ⟨i, hi⟩).label ++ [' '] ++
        ((rs.get ⟨i, hi⟩).features.map (fun p =>
          renderInt (p.1 + if zb then 0 else 1) ++ ':' :: renderQ p.2 ++ [' '])).flatten ++
        '#' :: ' ' :: (rs.get ⟨i, hi⟩).comment ++ [' '] := by
  rw [dump_mk]
  have hb : i < (rs.map (dumpLineRec zb)).length := by simpa using hi
  rw [List.getD_eq_getElem _ _ hb, List.getElem_map]
  simp [dumpLineRec, featCore]

/-- Witness for C10: a comment-free record still gets the hash marker and
every token carries its trailing space. -/
theorem claim_C10_witness :
    (dump_svmlight_file (mkDataset [⟨1, [(0, 1 / 2)], ([] : List Char)⟩]) false).getD 0 [] =
      renderQ ((1 : ℚ)) ++ [' '] ++
        (([((0 : ℤ), (1 : ℚ) / 2)]).map (fun p =>
          renderInt (p.1 + if false then 0 else 1) ++ ':' :: renderQ p.2 ++ [' '])).flatten ++
        '#' :: ' ' :: ([] : List Char) ++ [' '] :=
  claim_C10_writer_format false [⟨1, [(0, 1 / 2)], []⟩] 0 (by decide)

end Svmlight
